import Mathlib

/-!
Verification of the OT_DDH repository (Naor-Pinkas adaptive 1-out-of-N OT).

Shallow embedding of the Python sources:
  src/crypto/prf.py, src/crypto/commitment.py, src/crypto/ddh_group.py,
  src/channel/ddh_ot.py, src/channel/ot_1ofm.py,
  src/roles/adaptive_sender.py, src/roles/adaptive_receiver.py

Bytes are modelled as `List Nat` (each entry a byte value); Python `zip`
truncates to the shorter list, which `List.zipWith` matches exactly.
Functions that can raise are modelled with `Option` / an error sum.
SHA-256 and HMAC-SHA256 come from Python's standard library (not from this
repository), so they are abstracted as an arbitrary `Hash` record; theorems
that need it assume the 32-byte digest length.
-/

/-- Byte strings: each element is one byte value. -/
abbrev Bytes := List Nat

/-- Big-endian fixed-length encoding, the semantics of Python
`x.to_bytes(l, "big")` on in-range input (most significant byte first). -/
def beBytes (x l : Nat) : Bytes :=
  (List.range l).map (fun i => x / 256 ^ (l - 1 - i) % 256)

/-- `_os2ip` from src/channel/ot_1ofm.py: `int.from_bytes(b, "big")`. -/
def os2ip (b : Bytes) : Nat :=
  b.foldl (fun acc d => acc * 256 + d) 0

/-- `_i2osp` from src/channel/ot_1ofm.py: raises when `x >= (1 << (8*l))`,
otherwise returns the `l`-byte big-endian encoding. -/
def i2osp (x l : Nat) : Option Bytes :=
  if x < 2 ^ (8 * l) then some (beBytes x l) else none

/-- XOR of two byte strings via Python `zip` (truncates to the shorter),
as used in src/crypto/commitment.py and src/channel/ddh_ot.py. -/
def zipXor (a b : Bytes) : Bytes :=
  List.zipWith (fun x y => x ^^^ y) a b

/-- `_xor_bytes` from src/channel/ot_1ofm.py: raises on length mismatch. -/
def xorStrict (a b : Bytes) : Option Bytes :=
  if a.length = b.length then some (zipXor a b) else none

theorem beBytes_length (x l : Nat) : (beBytes x l).length = l := by
  simp [beBytes]

theorem zipXor_length (a b : Bytes) :
    (zipXor a b).length = min a.length b.length := by
  simp [zipXor]

theorem zipXor_cancel : ∀ (m pad : Bytes), m.length ≤ pad.length →
    zipXor (zipXor m pad) pad = m := by
  intro m
  induction m with
  | nil => intro pad _; simp [zipXor]
  | cons x xs ih =>
    intro pad hlen
    cases pad with
    | nil => simp at hlen
    | cons p ps =>
      have hx : x ^^^ p ^^^ p = x := Nat.xor_cancel_right p x
      have ht := ih ps (by simpa using hlen)
      simp only [zipXor, List.zipWith_cons_cons] at ht ⊢
      rw [hx, ht]

/-- Helper: foldl step of `os2ip` with an accumulator. -/
theorem os2ip_foldl_acc : ∀ (b : Bytes) (acc : Nat),
    b.foldl (fun acc d => acc * 256 + d) acc = acc * 256 ^ b.length + os2ip b := by
  intro b
  induction b with
  | nil => intro acc; simp [os2ip]
  | cons d ds ih =>
    intro acc
    simp only [List.foldl_cons, List.length_cons]
    rw [ih (acc * 256 + d)]
    have hd : os2ip (d :: ds) = d * 256 ^ ds.length + os2ip ds := by
      simp only [os2ip, List.foldl_cons]
      rw [show (0 * 256 + d) = d by ring, ih d]
      rfl
    rw [hd, pow_succ]
    ring

theorem os2ip_append (a b : Bytes) :
    os2ip (a ++ b) = os2ip a * 256 ^ b.length + os2ip b := by
  simp only [os2ip, List.foldl_append]
  exact os2ip_foldl_acc b (List.foldl (fun acc d => acc * 256 + d) 0 a)

/-- beBytes splits off its most significant byte. -/
theorem beBytes_succ (x l : Nat) :
    beBytes x (l + 1) = (x / 256 ^ l % 256) :: beBytes x l := by
  simp only [beBytes, List.range_succ_eq_map, List.map_cons, List.map_map]
  congr 1
  apply List.map_congr_left
  intro a ha
  show x / 256 ^ (l + 1 - 1 - (a + 1)) % 256 = x / 256 ^ (l - 1 - a) % 256
  have h : l + 1 - 1 - (a + 1) = l - 1 - a := by omega
  rw [h]

theorem os2ip_beBytes : ∀ (l x : Nat), x < 256 ^ l → os2ip (beBytes x l) = x := by
  intro l
  induction l with
  | zero =>
    intro x hx
    have hx0 : x = 0 := by simpa using hx
    subst hx0; rfl
  | succ n ih =>
    intro x hx
    rw [beBytes_succ]
    have hsplit : (x / 256 ^ n % 256) :: beBytes x n = [x / 256 ^ n % 256] ++ beBytes x n := rfl
    rw [hsplit, os2ip_append]
    have h1 : os2ip [x / 256 ^ n % 256] = x / 256 ^ n % 256 := by
      simp only [os2ip, List.foldl_cons, List.foldl_nil]
      omega
    have hlt : x % 256 ^ n < 256 ^ n := Nat.mod_lt _ (Nat.pos_pow_of_pos n (by norm_num))
    have h2 : os2ip (beBytes x n) = x % 256 ^ n := by
      have heq : beBytes x n = beBytes (x % 256 ^ n) n := by
        apply List.map_congr_left
        intro i hi
        have hin : i < n := List.mem_range.mp hi
        show x / 256 ^ (n - 1 - i) % 256 = x % 256 ^ n / 256 ^ (n - 1 - i) % 256
        have hpow : (256:ℕ) ^ n = 256 ^ (n - 1 - i) * 256 ^ (i + 1) := by
          rw [← pow_add]; congr 1; omega
        have hx2 : x = 256 ^ (n - 1 - i) * (256 ^ (i + 1) * (x / 256 ^ n)) + x % 256 ^ n := by
          conv_lhs => rw [← Nat.div_add_mod x (256 ^ n)]
          rw [hpow]; ring
        conv_lhs => rw [hx2]
        rw [Nat.mul_add_div (Nat.pos_pow_of_pos _ (by norm_num))]
        rw [show (256:ℕ) ^ (i + 1) * (x / 256 ^ n) = 256 * (256 ^ i * (x / 256 ^ n)) by
          rw [pow_succ]; ring]
        rw [Nat.mul_add_mod]
      rw [heq, ih _ hlt]
    rw [h1, beBytes_length, h2]
    have hd : x / 256 ^ n % 256 = x / 256 ^ n := by
      apply Nat.mod_eq_of_lt
      apply Nat.div_lt_of_lt_mul
      rw [← Nat.pow_succ]
      exact hx
    rw [hd]
    have hdm := Nat.div_add_mod x (256 ^ n)
    rw [Nat.mul_comm] at hdm
    exact hdm

/-! ### Bit length and modular exponentiation

Python's `int.bit_length()` and three-argument `pow` are builtins used
throughout the sources; they are embedded as fuel-based executable
functions so concrete instances evaluate in the kernel. -/

/-- Fuel-driven bit length: counts halvings until zero. -/
def bitLenAux : Nat → Nat → Nat
  | 0, _ => 0
  | fuel + 1, n => if n = 0 then 0 else bitLenAux fuel (n / 2) + 1

/-- Python `n.bit_length()`. -/
def bitLen (n : Nat) : Nat := bitLenAux n n

theorem bitLenAux_fuel : ∀ (f1 : Nat) (n : Nat) (f2 : Nat), n ≤ f1 → n ≤ f2 →
    bitLenAux f1 n = bitLenAux f2 n := by
  intro f1
  induction f1 using Nat.strong_induction_on with
  | _ f1 ih =>
    intro n f2 h1 h2
    match f1, f2 with
    | 0, 0 => rfl
    | 0, f2 + 1 =>
      have : n = 0 := by omega
      subst this; simp [bitLenAux]
    | f1 + 1, 0 =>
      have : n = 0 := by omega
      subst this; simp [bitLenAux]
    | f1 + 1, f2 + 1 =>
      by_cases hn : n = 0
      · subst hn; simp [bitLenAux]
      · simp only [bitLenAux, if_neg hn]
        congr 1
        exact ih f1 (by omega) (n / 2) f2 (by omega) (by omega)

theorem bitLen_zero : bitLen 0 = 0 := rfl

theorem bitLen_succ_div (n : Nat) (hn : n ≠ 0) : bitLen n = bitLen (n / 2) + 1 := by
  unfold bitLen
  match hfn : n, hn with
  | m + 1, _ =>
    simp only [bitLenAux, if_neg (Nat.succ_ne_zero m)]
    congr 1
    exact bitLenAux_fuel m ((m + 1) / 2) ((m + 1) / 2) (by omega) (by omega)

/-- bitLen agrees with `Nat.log 2 · + 1` on positive numbers. -/
theorem bitLen_eq_log (n : Nat) (hn : 0 < n) : bitLen n = Nat.log 2 n + 1 := by
  induction n using Nat.strong_induction_on with
  | _ n ih =>
    rcases Nat.lt_or_ge n 2 with h2 | h2
    · interval_cases n
      rw [Nat.log_one_right]
      rfl
    · rw [bitLen_succ_div n (by omega)]
      rw [ih (n / 2) (by omega) (by omega)]
      rw [Nat.log_div_base 2 n]
      have hlog : 1 ≤ Nat.log 2 n := by
        rw [Nat.one_le_iff_ne_zero]
        intro h0
        have := Nat.log_eq_zero_iff.mp h0
        omega
      omega

theorem lt_two_pow_bitLen (n : Nat) : n < 2 ^ bitLen n := by
  rcases Nat.eq_zero_or_pos n with h | h
  · subst h; simp [bitLen_zero]
  · rw [bitLen_eq_log n h]
    exact Nat.lt_pow_succ_log_self (by norm_num) n

theorem two_pow_bitLen_le (n : Nat) (hn : 0 < n) : 2 ^ (bitLen n - 1) ≤ n := by
  rw [bitLen_eq_log n hn]
  simpa using Nat.pow_log_le_self 2 (by omega)

/-- Fuel-driven fast modular exponentiation (square and multiply). -/
def powModAux : Nat → Nat → Nat → Nat → Nat
  | 0, _, _, m => 1 % m
  | fuel + 1, b, e, m =>
    if e = 0 then 1 % m
    else
      let r := powModAux fuel (b * b % m) (e / 2) m
      if e % 2 = 1 then r * b % m else r

/-- Python `pow(b, e, m)` for `m > 0`. -/
def powMod (b e m : Nat) : Nat := powModAux e b e m

theorem powModAux_eq : ∀ (fuel b e m : Nat), e ≤ fuel → 0 < m →
    powModAux fuel b e m = b ^ e % m := by
  intro fuel
  induction fuel using Nat.strong_induction_on with
  | _ fuel ih =>
    intro b e m hf hm
    match fuel with
    | 0 =>
      have : e = 0 := by omega
      subst this
      simp [powModAux]
    | fuel + 1 =>
      by_cases he : e = 0
      · subst he; simp [powModAux]
      · simp only [powModAux, if_neg he]
        have hrec : powModAux fuel (b * b % m) (e / 2) m = (b * b % m) ^ (e / 2) % m :=
          ih fuel (by omega) (b * b % m) (e / 2) m (by omega) hm
        have hbb : (b * b % m) ^ (e / 2) % m = (b ^ 2) ^ (e / 2) % m := by
          rw [← Nat.pow_mod, sq]
        by_cases hodd : e % 2 = 1
        · simp only [if_pos hodd]
          rw [hrec, hbb, Nat.mod_mul_mod]
          congr 1
          rw [← pow_mul, ← pow_succ]
          congr 1
          omega
        · simp only [if_neg hodd]
          rw [hrec, hbb]
          congr 1
          rw [← pow_mul]
          congr 1
          omega

theorem powMod_eq (b e m : Nat) (hm : 0 < m) : powMod b e m = b ^ e % m :=
  powModAux_eq e b e m (le_refl e) hm

/-- Fuel-based extended Euclid: `egcdAux fuel a b = (g, x, y)` with
`x*a + y*b = g = gcd a b` (fuel `b` suffices since the second argument
strictly decreases). -/
def egcdAux : Nat → Nat → Nat → Nat × Int × Int
  | 0, a, _ => (a, 1, 0)
  | fuel + 1, a, b =>
    if b = 0 then (a, 1, 0)
    else
      let r := egcdAux fuel b (a % b)
      (r.1, r.2.2, r.2.1 - ((a / b : Nat) : Int) * r.2.2)

/-- Extended Euclid on naturals. -/
def egcd (a b : Nat) : Nat × Int × Int := egcdAux b a b

theorem egcdAux_spec : ∀ (fuel a b : Nat), b ≤ fuel →
    (egcdAux fuel a b).1 = Nat.gcd a b
    ∧ (egcdAux fuel a b).2.1 * a + (egcdAux fuel a b).2.2 * b
        = ((Nat.gcd a b : Nat) : Int) := by
  intro fuel
  induction fuel using Nat.strong_induction_on with
  | _ fuel ih =>
    intro a b hb
    match fuel with
    | 0 =>
      have hb0 : b = 0 := by omega
      subst hb0
      simp [egcdAux]
    | fuel + 1 =>
      by_cases hb0 : b = 0
      · subst hb0
        simp [egcdAux]
      · have hrec := ih fuel (by omega) b (a % b) (by
          have := Nat.mod_lt a (show 0 < b by omega)
          omega)
        obtain ⟨hg, hxy⟩ := hrec
        have hgcd : Nat.gcd a b = Nat.gcd b (a % b) := by
          rw [Nat.gcd_comm b (a % b), ← Nat.gcd_rec b a, Nat.gcd_comm]
        constructor
        · simp only [egcdAux, if_neg hb0]
          rw [hg, hgcd]
        · simp only [egcdAux, if_neg hb0]
          rw [hgcd, ← hxy]
          have hmod : ((a % b : Nat) : Int) = (a : Int) - (b : Int) * ((a / b : Nat) : Int) := by
            have h := Nat.div_add_mod a b
            have h2 : (b : Int) * ((a / b : Nat) : Int) + ((a % b : Nat) : Int) = (a : Int) := by
              exact_mod_cast congrArg (fun n : Nat => (n : Int)) h
            linarith
          rw [hmod]
          ring

theorem egcd_spec (a b : Nat) :
    (egcd a b).1 = Nat.gcd a b
    ∧ (egcd a b).2.1 * a + (egcd a b).2.2 * b = ((Nat.gcd a b : Nat) : Int) :=
  egcdAux_spec b a b (le_refl b)

/-- Python `pow(a, -1, p)`: the modular inverse via the extended Euclidean
algorithm; raises `ValueError` when `gcd(a, p) ≠ 1`. -/
def invMod (a p : Nat) : Option Nat :=
  if (egcd (a % p) p).1 = 1 then some (((egcd (a % p) p).2.1 % (p : Int)).toNat % p)
  else none

theorem invMod_spec (a p v : Nat) (hp : 1 < p) (h : invMod a p = some v) :
    a * v % p = 1 := by
  unfold invMod at h
  split at h
  case isTrue hgcd =>
    have hv : v = ((egcd (a % p) p).2.1 % (p : Int)).toNat % p := (Option.some.inj h).symm
    obtain ⟨hg, hxy⟩ := egcd_spec (a % p) p
    rw [hg] at hgcd
    rw [hgcd] at hxy
    set g : Int := (egcd (a % p) p).2.1 with hgdef
    -- cast of v into ZMod p equals cast of the Bezout coefficient
    have hva : ((v : Nat) : ZMod p) = ((g : Int) : ZMod p) := by
      rw [hv, ZMod.natCast_mod]
      have htn : (((g % (p : Int)).toNat : ℕ) : ZMod p) = ((g % (p : Int) : ℤ) : ZMod p) := by
        rw [← Int.cast_natCast, Int.toNat_of_nonneg (Int.emod_nonneg _ (by omega))]
      rw [htn, ZMod.intCast_mod]
    have hone : (1 : ZMod p) = ((a : ZMod p)) * ((g : Int) : ZMod p) := by
      have hz : (1 : ℤ) = g * ((a % p : ℕ) : ℤ) + (egcd (a % p) p).2.2 * (p : ℤ) := by
        have h := hxy.symm
        rw [Nat.cast_one] at h
        exact h
      have hibez : ((1 : ℤ) : ZMod p)
          = ((g * ((a % p : ℕ) : ℤ) + (egcd (a % p) p).2.2 * (p : ℤ) : ℤ) : ZMod p) := by
        rw [← hz]
      push_cast at hibez
      simp only [ZMod.natCast_self, mul_zero, add_zero] at hibez
      rw [mul_comm] at hibez
      simpa using hibez
    have hfin : ((a * v : ℕ) : ZMod p) = ((1 : ℕ) : ZMod p) := by
      push_cast
      rw [hva, ← hone]
    have := (ZMod.natCast_eq_natCast_iff' (a * v) 1 p).mp hfin
    rwa [Nat.mod_eq_of_lt hp] at this
  case isFalse => exact absurd h (by simp)

/-! ### PRF (src/crypto/prf.py)

`prf` is SHA-256 in counter mode.  SHA-256 itself and HMAC-SHA256 are
Python-stdlib primitives, not code of this repository, so they are
abstracted as an arbitrary `Hash` record; theorems assume only the 32-byte
digest length where the code relies on it. -/

/-- External hash primitives (hashlib.sha256 digest and hmac-sha256). -/
structure Hash where
  sha : Bytes → Bytes
  hmac : Bytes → Bytes → Bytes

/-- The `while len(out) < msg_len` loop of `prf`, with explicit fuel
(each genuine iteration appends one 32-byte digest, so `msg_len` units of
fuel always suffice). -/
def prfLoop (H : Hash) (key : Bytes) (msgLen : Nat) : Nat → Nat → Bytes → Bytes
  | 0, _, out => out
  | fuel + 1, counter, out =>
    if out.length < msgLen then
      prfLoop H key msgLen fuel (counter + 1) (out ++ H.sha (key ++ beBytes counter 4))
    else out

/-- `prf(key, msg_len)` from src/crypto/prf.py. -/
def prf (H : Hash) (key : Bytes) (msgLen : Nat) : Bytes :=
  (prfLoop H key msgLen msgLen 0 []).take msgLen

/-- Modelled from the spec: `prf_labeled` is imported from src/crypto/prf.py
by src/crypto/commitment.py and src/channel/ot_1ofm.py but its definition is
absent from the sources; the spec defines it as "equivalent to
`PRF(key ‖ label, out_len)` (label is domain separator)". -/
def prf_labeled (H : Hash) (key label : Bytes) (outLen : Nat) : Bytes :=
  prf H (key ++ label) outLen

/-- Digest blocks of the counter mode: SHA256(key ‖ be32(c)) for c < k. -/
def prfBlocks (H : Hash) (key : Bytes) (start k : Nat) : Bytes :=
  ((List.range k).map (fun t => H.sha (key ++ beBytes (start + t) 4))).flatten

theorem prfBlocks_zero (H : Hash) (key : Bytes) (c : Nat) :
    prfBlocks H key c 0 = [] := rfl

theorem prfBlocks_succ (H : Hash) (key : Bytes) (c k : Nat) :
    prfBlocks H key c (k + 1) = H.sha (key ++ beBytes c 4) ++ prfBlocks H key (c + 1) k := by
  unfold prfBlocks
  rw [List.range_succ_eq_map, List.map_cons, List.flatten_cons, List.map_map]
  congr 2
  apply List.map_congr_left
  intro a _
  show H.sha (key ++ beBytes (c + (a + 1)) 4) = H.sha (key ++ beBytes (c + 1 + a) 4)
  congr 3
  omega

theorem prfLoop_closed (H : Hash) (key : Bytes) (msgLen : Nat)
    (h32 : ∀ b, (H.sha b).length = 32) :
    ∀ (fuel c : Nat) (out : Bytes), msgLen ≤ out.length + 32 * fuel →
      prfLoop H key msgLen fuel c out
        = out ++ prfBlocks H key c ((msgLen - out.length + 31) / 32) := by
  intro fuel
  induction fuel with
  | zero =>
    intro c out hle
    have h0 : msgLen - out.length = 0 := by omega
    simp [prfLoop, h0, prfBlocks_zero]
  | succ fuel ih =>
    intro c out hle
    by_cases hlt : out.length < msgLen
    · simp only [prfLoop, if_pos hlt]
      rw [ih (c + 1) (out ++ H.sha (key ++ beBytes c 4)) (by
        rw [List.length_append, h32]
        omega)]
      rw [List.length_append, h32]
      have harith : (msgLen - out.length + 31) / 32
          = (msgLen - (out.length + 32) + 31) / 32 + 1 := by omega
      rw [harith, prfBlocks_succ, List.append_assoc]
    · simp only [prfLoop, if_neg hlt]
      have h0 : msgLen - out.length = 0 := by omega
      simp [h0, prfBlocks_zero]

/-- Closed form for `prf`: the (truncated) concatenation of the counter-mode
digest blocks. -/
theorem prf_closed (H : Hash) (key : Bytes) (msgLen : Nat)
    (h32 : ∀ b, (H.sha b).length = 32) :
    prf H key msgLen = (prfBlocks H key 0 ((msgLen + 31) / 32)).take msgLen := by
  unfold prf
  rw [prfLoop_closed H key msgLen h32 msgLen 0 [] (by simp; omega)]
  simp

theorem prfBlocks_length (H : Hash) (key : Bytes) (h32 : ∀ b, (H.sha b).length = 32) :
    ∀ (k c : Nat), (prfBlocks H key c k).length = 32 * k := by
  intro k
  induction k with
  | zero => intro c; simp [prfBlocks_zero]
  | succ k ih =>
    intro c
    rw [prfBlocks_succ, List.length_append, h32, ih (c + 1)]
    omega

theorem prf_length (H : Hash) (key : Bytes) (msgLen : Nat)
    (h32 : ∀ b, (H.sha b).length = 32) : (prf H key msgLen).length = msgLen := by
  rw [prf_closed H key msgLen h32, List.length_take,
    prfBlocks_length H key h32 ((msgLen + 31) / 32) 0]
  omega

theorem prf_labeled_length (H : Hash) (key label : Bytes) (outLen : Nat)
    (h32 : ∀ b, (H.sha b).length = 32) : (prf_labeled H key label outLen).length = outLen :=
  prf_length H (key ++ label) outLen h32

/-! ### DDH group (src/crypto/ddh_group.py)

`DDHGroup.__init__` hardcodes the RFC 3526 2048-bit MODP prime with
generator 2 and exposes `power` and `get_random_exponent`.  The strict
protocol classes additionally require a subgroup order attribute `q`;
a group is therefore embedded as a record of the three integers. -/

/-- Group parameters `(p, q, g)` as carried by the strict group objects. -/
structure DDHGrp where
  p : Nat
  q : Nat
  g : Nat

/-- The hardcoded RFC 3526 2048-bit MODP prime from `DDHGroup.__init__`. -/
def MODP_P : Nat :=
  0xFFFFFFFFFFFFFFFFC90FDAA22168C234C4C6628B80DC1CD129024E088A67CC74020BBEA63B139B22514A08798E3404DDEF9519B3CD3A431B302B0A6DF25F14374FE1356D6D51C245E485B576625E7EC6F44C42E9A637ED6B0BFF5CB6F406B7EDEE386BFB5A899FA5AE9F24117C4B1FE649286651ECE45B3DC2007CB8A163BF0598DA48361C55D39A69163FA8FD24CF5F83655D23DCA3AD961C62F356208552BB9ED529077096966D670C354E4ABC9804F1746C08CA18217C32905E462E36CE3BE39E772C180E86039B2783A2EC07A28FB5C55DF06F4C52C9DE2BCBF6955817183995497CEA956AE515D2261898FA051015728E5A8AACAA68FFFFFFFFFFFFFFFF

/-- The order of the subgroup of squares of the safe prime `MODP_P`
(for a safe prime `p`, `q = (p - 1) / 2`). -/
def MODP_Q : Nat := (MODP_P - 1) / 2

/-- `DDHGroup.get_random_exponent`: `secrets.randbelow(p - 1) + 1` as a
function of the uniform draw `r ∈ [0, p - 2]`; its output lies in `[1, p-1]`
(the code's own docstring: "The exponent should be in the range [1, p-1]"). -/
def getRandomExponent (r : Nat) : Nat := r + 1

/-- `AdaptiveSender._rand_nonzero_scalar`: `secrets.randbelow(q - 1) + 1` as
a function of the uniform draw `r ∈ [0, q - 2]`. -/
def randNonzeroScalar (r : Nat) : Nat := r + 1

/-- `DDHGroup.power(base, exp)`: reduces the base mod p first, then
`pow(base, exp, p)`. -/
def grpPow (G : DDHGrp) (base exp : Nat) : Nat := powMod (base % G.p) exp G.p

theorem grpPow_eq (G : DDHGrp) (base exp : Nat) (hp : 0 < G.p) :
    grpPow G base exp = base ^ exp % G.p := by
  rw [grpPow, powMod_eq _ _ _ hp, ← Nat.pow_mod]

/-- Iterated `powMod` multiplies exponents. -/
theorem powMod_powMod (b e1 e2 p : Nat) (hp : 0 < p) :
    powMod (powMod b e1 p) e2 p = b ^ (e1 * e2) % p := by
  rw [powMod_eq _ _ _ hp, powMod_eq _ _ _ hp, ← Nat.pow_mod, ← pow_mul]

/-- When `g^q ≡ 1 (mod p)`, exponents of `g` may be reduced mod `q`. -/
theorem powMod_exp_mod (g e q p : Nat) (hp : 0 < p) (hq : 0 < q)
    (hgq : powMod g q p = 1) :
    g ^ e % p = g ^ (e % q) % p := by
  rw [powMod_eq _ _ _ hp] at hgq
  have hp1 : 1 < p := by
    rcases Nat.lt_or_ge p 2 with h | h
    · interval_cases p
      omega
    · exact h
  conv_lhs => rw [show e = q * (e / q) + e % q from (Nat.div_add_mod e q).symm]
  rw [pow_add, pow_mul, Nat.mul_mod, Nat.pow_mod, hgq, one_pow, Nat.mod_eq_of_lt hp1,
    one_mul, Nat.mod_mod_of_dvd _ (dvd_refl p)]

/-! ### Commitment scheme (src/crypto/commitment.py) -/

/-- `CommitmentScheme.PAD_LABEL`, the ASCII bytes of "NP05-COMMIT-PAD". -/
def PAD_LABEL : Bytes := [78, 80, 48, 53, 45, 67, 79, 77, 77, 73, 84, 45, 80, 65, 68]

/-- `CommitmentScheme.MAC_LABEL`, the ASCII bytes of "NP05-COMMIT-MAC". -/
def MAC_LABEL : Bytes := [78, 80, 48, 53, 45, 67, 79, 77, 77, 73, 84, 45, 77, 65, 67]

/-- `CommitmentScheme.commit(message, key, aad)`.  Fails (`none`) when the
key is empty (TypeError) or when `struct.pack(">I", len(m))` overflows
(message of 2^32 bytes or more). -/
def commit (H : Hash) (message key aad : Bytes) : Option Bytes :=
  if key.length = 0 then none
  else
    match i2osp message.length 4 with
    | none => none
    | some hdr =>
      let pad := prf_labeled H key PAD_LABEL message.length
      let ct := zipXor message pad
      let macKey := prf_labeled H key MAC_LABEL 32
      let tag := H.hmac macKey (hdr ++ aad ++ ct)
      some (hdr ++ ct ++ tag)

/-- `CommitmentScheme.open(blob, key, aad)`: returns the message or fails
(`none`) on any of the checks (short blob, empty key, header/length
mismatch, tag mismatch). -/
def copen (H : Hash) (blob key aad : Bytes) : Option Bytes :=
  if blob.length < 4 + 32 then none
  else if key.length = 0 then none
  else
    let hdr := blob.take 4
    let mlen := os2ip hdr
    let ct := (blob.drop 4).take (blob.length - 36)
    let tag := blob.drop (blob.length - 32)
    if ct.length ≠ mlen then none
    else
      let macKey := prf_labeled H key MAC_LABEL 32
      let expTag := H.hmac macKey (hdr ++ aad ++ ct)
      if expTag ≠ tag then none
      else
        let pad := prf_labeled H key PAD_LABEL mlen
        some (zipXor ct pad)

/-- `CommitmentScheme.verify(blob, key, aad, expected)`: `True` iff `open`
succeeds and (when `expected` is given) the opened message equals it;
every exception from `open` is swallowed into `False`. -/
def verify (H : Hash) (blob key aad : Bytes) (expected : Option Bytes) : Bool :=
  match copen H blob key aad with
  | none => false
  | some msg =>
    match expected with
    | none => true
    | some e => msg == e

/-- Opening a well-formed `hdr ++ ct ++ tag` blob whose header matches the
ciphertext length and whose tag is the recomputed HMAC succeeds and returns
the unpadded ciphertext. -/
theorem copen_append (H : Hash) (key aad hdr ct tag : Bytes)
    (hh : hdr.length = 4) (ht : tag.length = 32) (hkey : key.length ≠ 0)
    (hmlen : os2ip hdr = ct.length)
    (htag : tag = H.hmac (prf_labeled H key MAC_LABEL 32) (hdr ++ aad ++ ct)) :
    copen H (hdr ++ ct ++ tag) key aad
      = some (zipXor ct (prf_labeled H key PAD_LABEL ct.length)) := by
  have hblen : (hdr ++ ct ++ tag).length = 36 + ct.length := by
    simp [hh, ht]
    omega
  unfold copen
  rw [if_neg (by rw [hblen]; omega), if_neg hkey]
  have h1 : (hdr ++ ct ++ tag).take 4 = hdr := by
    rw [List.append_assoc]
    exact List.take_left' hh
  have h2 : ((hdr ++ ct ++ tag).drop 4).take ((hdr ++ ct ++ tag).length - 36) = ct := by
    rw [hblen, List.append_assoc, List.drop_left' hh]
    rw [show 36 + ct.length - 36 = ct.length from by omega]
    exact List.take_left' rfl
  have h3 : (hdr ++ ct ++ tag).drop ((hdr ++ ct ++ tag).length - 32) = tag := by
    rw [hblen, show 36 + ct.length - 32 = (hdr ++ ct).length from by simp [hh]; omega]
    exact List.drop_left (hdr ++ ct) tag
  dsimp only
  rw [h1, h2, h3, hmlen]
  rw [if_neg (by simp)]
  rw [if_neg (by rw [htag]; simp)]

/-- Round trip `open (commit msg key aad) key aad = msg` for a non-empty key
and a message below the 2^32-byte header limit. -/
theorem commit_copen_roundtrip (H : Hash) (message key aad : Bytes)
    (h32 : ∀ b, (H.sha b).length = 32) (hm32 : ∀ k d, (H.hmac k d).length = 32)
    (hkey : key.length ≠ 0) (hmsg : message.length < 2 ^ 32) :
    ∃ blob, commit H message key aad = some blob ∧ copen H blob key aad = some message := by
  have hpadlen : (prf_labeled H key PAD_LABEL message.length).length = message.length :=
    prf_labeled_length H key PAD_LABEL message.length h32
  have hctlen : (zipXor message (prf_labeled H key PAD_LABEL message.length)).length
      = message.length := by
    rw [zipXor_length, hpadlen]
    omega
  have hcommit : commit H message key aad
      = some (beBytes message.length 4
          ++ zipXor message (prf_labeled H key PAD_LABEL message.length)
          ++ H.hmac (prf_labeled H key MAC_LABEL 32)
            (beBytes message.length 4 ++ aad
              ++ zipXor message (prf_labeled H key PAD_LABEL message.length))) := by
    unfold commit i2osp
    rw [if_neg hkey, if_pos hmsg]
  refine ⟨_, hcommit, ?_⟩
  rw [copen_append H key aad _ _ _ (beBytes_length _ _) (hm32 _ _) hkey
    (by rw [hctlen]; exact os2ip_beBytes 4 message.length (by norm_num at hmsg ⊢; omega)) rfl]
  rw [hctlen]
  congr 1
  exact zipXor_cancel message _ (by rw [hpadlen])

/-! ### 1-out-of-2 DDH OT (src/channel/ddh_ot.py)

The sender's secret exponent `a` (from `prepare`) and the receiver's secret
exponent `b` (from `__init__`) are sampled via `get_random_exponent`; the
embedding takes them as explicit parameters. -/

/-- `(p.bit_length() + 7) // 8`: the fixed byte length used for `enc(K)`. -/
def keyByteLen (p : Nat) : Nat := (bitLen p + 7) / 8

/-- `DDHOTSender.prepare`: publishes `A = g^a mod p`. -/
def otA (G : DDHGrp) (a : Nat) : Nat := grpPow G G.g a

/-- `DDHOTReceiver.generate_B`: `B = g^b` when the choice bit is 0 and
`B = A * g^b mod p` otherwise. -/
def generateB (G : DDHGrp) (b c A : Nat) : Nat :=
  if c = 0 then grpPow G G.g b else A * grpPow G G.g b % G.p

/-- `DDHOTSender.respond(B, m0, m1)`: checks `1 < B < p` and equal message
lengths, computes `K0 = B^a`, `K1 = (B * A^{-1})^a` and the two PRF-masked
ciphertexts.  `pow(self.A, -1, p)` raises when `A` is not invertible. -/
def respond (H : Hash) (G : DDHGrp) (a B : Nat) (m0 m1 : Bytes) :
    Option (Bytes × Bytes) :=
  if ¬(1 < B ∧ B < G.p) then none
  else if m0.length ≠ m1.length then none
  else
    let A := otA G a
    let K0 := grpPow G B a
    match invMod A G.p with
    | none => none
    | some Ainv =>
      let K1 := grpPow G (B * Ainv % G.p) a
      let kl := keyByteLen G.p
      let pad0 := prf H (beBytes K0 kl) m0.length
      let pad1 := prf H (beBytes K1 kl) m1.length
      some (zipXor m0 pad0, zipXor m1 pad1)

/-- `DDHOTReceiver.recover(c_tuple)`: always computes `K = A^b` and unmasks
the ciphertext selected by the choice bit. -/
def recover (H : Hash) (G : DDHGrp) (b c A : Nat) (cts : Bytes × Bytes) : Bytes :=
  let K := grpPow G A b
  let chosen := if c = 0 then cts.1 else cts.2
  let kl := keyByteLen G.p
  zipXor chosen (prf H (beBytes K kl) chosen.length)

/-- With choice bit 0 the sender's `K0 = B^a` equals the receiver's `A^b`. -/
theorem ot2_key0 (G : DDHGrp) (a b : Nat) (hp0 : 0 < G.p) :
    grpPow G (generateB G b 0 (otA G a)) a = grpPow G (otA G a) b := by
  rw [generateB, if_pos rfl, otA]
  rw [grpPow_eq _ _ _ hp0, grpPow_eq _ _ _ hp0, grpPow_eq _ _ _ hp0, grpPow_eq _ _ _ hp0]
  rw [← Nat.pow_mod, ← Nat.pow_mod, ← pow_mul, ← pow_mul, Nat.mul_comm]

/-- With choice bit 1 the sender's `K1 = (B·A^{-1})^a` equals the receiver's
`A^b`. -/
theorem ot2_key1 (G : DDHGrp) (a b Ainv : Nat) (hp : 1 < G.p)
    (hAinv : invMod (otA G a) G.p = some Ainv) :
    grpPow G (generateB G b 1 (otA G a) * Ainv % G.p) a = grpPow G (otA G a) b := by
  have hp0 : 0 < G.p := by omega
  have hAA : otA G a * Ainv % G.p = 1 := invMod_spec _ _ _ hp hAinv
  rw [generateB, if_neg (by omega : ¬(1:Nat) = 0)]
  have hcong : (otA G a * grpPow G G.g b % G.p) * Ainv % G.p = grpPow G G.g b % G.p := by
    rw [Nat.mod_mul_mod]
    have h1 : otA G a * grpPow G G.g b * Ainv = otA G a * Ainv * grpPow G G.g b := by ring
    rw [h1, Nat.mul_mod, hAA, one_mul, Nat.mod_mod_of_dvd _ (dvd_refl G.p)]
  rw [hcong, otA]
  rw [grpPow_eq _ _ _ hp0, grpPow_eq _ _ _ hp0, grpPow_eq _ _ _ hp0, grpPow_eq _ _ _ hp0]
  rw [Nat.mod_mod_of_dvd _ (dvd_refl G.p), ← Nat.pow_mod, ← Nat.pow_mod, ← pow_mul, ← pow_mul,
    Nat.mul_comm]

/-- 1-out-of-2 OT correctness: whenever `respond` succeeds on the B computed
by the receiver, `recover` returns the message selected by the choice bit. -/
theorem ot2_correct (H : Hash) (G : DDHGrp) (a b c : Nat) (m0 m1 : Bytes)
    (h32 : ∀ bs, (H.sha bs).length = 32) (hp : 1 < G.p) (hc : c = 0 ∨ c = 1)
    (c0 c1 : Bytes)
    (hres : respond H G a (generateB G b c (otA G a)) m0 m1 = some (c0, c1)) :
    recover H G b c (otA G a) (c0, c1) = (if c = 0 then m0 else m1) := by
  have hp0 : 0 < G.p := by omega
  unfold respond at hres
  split at hres
  · exact absurd hres (by simp)
  · split at hres
    · exact absurd hres (by simp)
    · rename_i hB hlen
      dsimp only at hres
      rcases hAinv : invMod (otA G a) G.p with _ | Ainv
      · rw [hAinv] at hres
        exact absurd hres (by simp)
      · rw [hAinv] at hres
        simp only [Option.some.injEq, Prod.mk.injEq] at hres
        obtain ⟨hc0, hc1⟩ := hres
        unfold recover
        rcases hc with hcv | hcv
        · subst hcv
          simp only [↓reduceIte]
          rw [← hc0]
          have hkey := ot2_key0 G a b hp0
          have hpadlen : (prf H (beBytes (grpPow G (generateB G b 0 (otA G a)) a)
              (keyByteLen G.p)) m0.length).length = m0.length := prf_length _ _ _ h32
          rw [zipXor_length, hpadlen, show min m0.length m0.length = m0.length from by omega,
            ← hkey]
          exact zipXor_cancel m0 _ (by rw [hpadlen])
        · subst hcv
          dsimp only
          rw [if_neg (by omega : ¬(1 = 0)), if_neg (by omega : ¬(1 = 0))]
          rw [← hc1]
          have hkey := ot2_key1 G a b Ainv hp hAinv
          have hpadlen : (prf H (beBytes (grpPow G (generateB G b 1 (otA G a) * Ainv % G.p) a)
              (keyByteLen G.p)) m1.length).length = m1.length := prf_length _ _ _ h32
          rw [zipXor_length, hpadlen, show min m1.length m1.length = m1.length from by omega,
            ← hkey]
          exact zipXor_cancel m1 _ (by rw [hpadlen])

/-! ### 1-out-of-m OT (src/channel/ot_1ofm.py)

`OT1ofmSender.__init__` stores the group, the payload, the label, a random
16-byte `sid`, per-bit 32-byte seed pairs and per-bit `DDHOTSender`s, and
precomputes the ciphertext vector.  All randomness is taken as explicit
parameters of the record.  A `DDHOTSender` object carries its secret
exponent `self.a` (and public key `self.A`) only after `prepare()` has
been called on it; the field `a j` below is therefore an `Option`:
`none` models a constructed-but-never-prepared sender (reading `S2.A`
on it raises `AttributeError`), `some aj` a prepared one. -/

/-- Published/secret state of one `OT1ofmSender` service. -/
structure OTService where
  G : DDHGrp
  payload : List Nat
  label : Bytes
  sid : Bytes
  seeds0 : Nat → Bytes
  seeds1 : Nat → Bytes
  a : Nat → Option Nat

/-- `self.m = len(payload)`. -/
def svcM (s : OTService) : Nat := s.payload.length

/-- `math.ceil(math.log2 n)` for positive `n`. -/
def ceilLog2 (n : Nat) : Nat := if n ≤ 1 then 0 else bitLen (n - 1)

/-- `self.l = math.ceil(math.log2(m)) if m > 1 else 1`. -/
def svcL (s : OTService) : Nat := if 1 < svcM s then ceilLog2 (svcM s) else 1

/-- `self.q_bytes = (q.bit_length() + 7) // 8`. -/
def qBytes (s : OTService) : Nat := (bitLen s.G.q + 7) / 8

/-- The domain-separation info `label + b"|j=" + i2osp(j, 2) + b"|sid=" + sid`
(the byte lists are the ASCII of `|j=` and `|sid=`). -/
def bitInfo (label sid : Bytes) (j : Nat) : Option Bytes :=
  (i2osp j 2).map (fun jb => label ++ [124, 106, 61] ++ jb ++ [124, 115, 105, 100, 61] ++ sid)

/-- The seed the sender uses for index bit `j` of `t` (`seeds1` when the bit
is set, `seeds0` otherwise). -/
def seedAt (s : OTService) (t j : Nat) : Bytes :=
  if (t >>> j) &&& 1 = 1 then s.seeds1 j else s.seeds0 j

/-- The `for j, b in enumerate(bits)` pad loop of `OT1ofmSender.__init__`,
with the current bit position `j` and the remaining count explicit. -/
def svcPadLoop (H : Hash) (s : OTService) (t : Nat) : Nat → Nat → Bytes → Option Bytes
  | _, 0, pad => some pad
  | j, rem + 1, pad => do
    let info ← bitInfo s.label s.sid j
    let pad' ← xorStrict pad (prf_labeled H (seedAt s t j) info (qBytes s))
    svcPadLoop H s t (j + 1) rem pad'

/-- The pad for grid index `t` (start `pad = bytes([0]) * q_bytes`). -/
def svcPad (H : Hash) (s : OTService) (t : Nat) : Option Bytes :=
  svcPadLoop H s t 0 (svcL s) (List.replicate (qBytes s) 0)

/-- `CT_t = _xor_bytes(_i2osp(payload[t] % q, q_bytes), pad_t)`. -/
def svcCT (H : Hash) (s : OTService) (t : Nat) : Option Bytes := do
  let pad ← svcPad H s t
  let mt ← i2osp (s.payload.getD t 0 % s.G.q) (qBytes s)
  xorStrict mt pad

/-- `self.ciphertexts`, the precomputed vector for `t in range(m)`. -/
def svcCiphertexts (H : Hash) (s : OTService) : Option (List Bytes) :=
  (List.range (svcM s)).mapM (svcCT H s)

/-- One iteration of step 1 of `OT1ofmReceiver.choose`: run the `j`-th
1-out-of-2 OT with choice bit `(index >> j) & 1` and recover the seed
(`bs j` is the fresh `DDHOTReceiver` exponent).  The first read of the
sender's state is `B = r2.generate_B(S2.A)` (ot_1ofm.py:122): when the
`j`-th per-bit sender was never prepared (`s.a j = none`), `S2.A` does
not exist and the step fails. -/
def chooseSeed (H : Hash) (rG : DDHGrp) (s : OTService) (idx : Nat) (bs : Nat → Nat)
    (j : Nat) : Option Bytes := do
  let bit := (idx >>> j) &&& 1
  let aj ← s.a j
  let A := otA s.G aj
  let B := generateB rG (bs j) bit A
  let (c0, c1) ← respond H s.G aj B (s.seeds0 j) (s.seeds1 j)
  let seed := recover H rG (bs j) bit A (c0, c1)
  if seed.length = 32 then some seed else none

/-- The `for j, seed in enumerate(seeds)` pad-rebuild loop of step 2 of
`OT1ofmReceiver.choose` (the receiver uses its own label `rlabel`). -/
def rebuildPadLoop (H : Hash) (rlabel sid : Bytes) (qb : Nat) :
    Nat → List Bytes → Bytes → Option Bytes
  | _, [], pad => some pad
  | j, seed :: rest, pad => do
    let info ← bitInfo rlabel sid j
    let pad' ← xorStrict pad (prf_labeled H seed info qb)
    rebuildPadLoop H rlabel sid qb (j + 1) rest pad'

/-- `OT1ofmReceiver.choose` up to (and excluding) the final `Z_q^*` range
check: index check, the ℓ nested OTs, pad rebuild, ciphertext length check
and decryption. -/
def chooseVal (H : Hash) (rG : DDHGrp) (rlabel : Bytes) (s : OTService) (idx : Nat)
    (bs : Nat → Nat) : Option Nat := do
  if svcM s ≤ idx then none
  else
    let seeds ← (List.range (svcL s)).mapM (chooseSeed H rG s idx bs)
    let pad ← rebuildPadLoop H rlabel s.sid (qBytes s) 0 seeds (List.replicate (qBytes s) 0)
    let cts ← svcCiphertexts H s
    let ct := cts.getD idx []
    if ct.length ≠ qBytes s then none
    else do
      let mb ← xorStrict ct pad
      some (os2ip mb)

/-- `OT1ofmReceiver.choose`: `chooseVal` followed by the rejection of any
decrypted value outside `Z_q^* = {1..q-1}`. -/
def choose (H : Hash) (rG : DDHGrp) (rlabel : Bytes) (s : OTService) (idx : Nat)
    (bs : Nat → Nat) : Option Nat := do
  let x ← chooseVal H rG rlabel s idx bs
  if 1 ≤ x ∧ x < s.G.q then some x else none

/-- `OT1ofmSender.__init__(group, payload, label)` (randomness `sid`,
`seeds0`, `seeds1` explicit): the strict group check, the non-emptiness
and `Z_q^*` range checks on the payload, and the ciphertext precomputation.
Its per-bit `DDHOTSender`s are constructed by `DDHOTSender(group)`, which
sets only `self.group`; `prepare()` is never called on them anywhere in the
repository, so the constructed service's senders all carry no secret
exponent (`a = fun _ => none`). -/
def mkService (H : Hash) (G : DDHGrp) (payload : List Nat) (label sid : Bytes)
    (s0 s1 : Nat → Bytes) : Option OTService :=
  if ¬(powMod G.g G.q G.p = 1 ∧ powMod G.g 2 G.p ≠ 1) then none
  else if payload.length = 0 then none
  else if ¬(∀ x ∈ payload, 1 ≤ x ∧ x < G.q) then none
  else
    match svcCiphertexts H ⟨G, payload, label, sid, s0, s1, fun _ => none⟩ with
    | none => none
    | some _ => some ⟨G, payload, label, sid, s0, s1, fun _ => none⟩

/-- `mapM` over a list succeeds pointwise. -/
theorem mapM_some {α β : Type} (l : List α) (f : α → Option β) (g : α → β)
    (hf : ∀ x ∈ l, f x = some (g x)) : l.mapM f = some (l.map g) := by
  induction l with
  | nil => rfl
  | cons x xs ih =>
    simp only [List.mapM_cons, hf x (List.mem_cons_self x xs), Option.bind_eq_bind]
    rw [ih (fun a ha => hf a (List.mem_cons_of_mem _ ha))]
    rfl

/-- The `j`-th nested 1-out-of-2 OT delivers exactly the seed matching bit
`j` of the index, provided the `j`-th per-bit sender has been prepared
(secret exponent `aj`) and the exchange passes its checks. -/
theorem chooseSeed_correct (H : Hash) (s : OTService) (idx : Nat) (bs : Nat → Nat)
    (j aj : Nat) (haj : s.a j = some aj)
    (h32 : ∀ b, (H.sha b).length = 32) (hp : 1 < s.G.p)
    (hs0 : (s.seeds0 j).length = 32) (hs1 : (s.seeds1 j).length = 32)
    (hot : (respond H s.G aj (generateB s.G (bs j) ((idx >>> j) &&& 1)
      (otA s.G aj)) (s.seeds0 j) (s.seeds1 j)).isSome) :
    chooseSeed H s.G s idx bs j = some (seedAt s idx j) := by
  have hbit : (idx >>> j) &&& 1 = 0 ∨ (idx >>> j) &&& 1 = 1 := by
    rw [Nat.and_one_is_mod]
    omega
  obtain ⟨⟨c0, c1⟩, hcc⟩ := Option.isSome_iff_exists.mp hot
  unfold chooseSeed
  dsimp only
  rw [haj]
  simp only [Option.bind_eq_bind, Option.some_bind]
  rw [hcc]
  simp only [Option.some_bind]
  have hrec := ot2_correct H s.G aj (bs j) ((idx >>> j) &&& 1) (s.seeds0 j) (s.seeds1 j)
    h32 hp hbit c0 c1 hcc
  rw [hrec]
  rcases hbit with hb | hb
  · rw [hb, if_pos (rfl : (0:Nat) = 0), if_pos hs0]
    simp only [seedAt, hb]
    rw [if_neg (by omega : ¬(0 = 1))]
  · rw [hb, if_neg (by omega : ¬(1 = 0)), if_pos hs1]
    simp [seedAt, hb]

/-- When the receiver uses the service's label and the seed recovered for
each bit equals the sender's seed for the chosen index, the pad-rebuild loop
computes exactly the sender's pad loop for that index. -/
theorem padLoop_agree (H : Hash) (s : OTService) (idx : Nat) :
    ∀ (rem j : Nat) (pad : Bytes),
      rebuildPadLoop H s.label s.sid (qBytes s) j
        ((List.range' j rem).map (seedAt s idx)) pad
      = svcPadLoop H s idx j rem pad := by
  intro rem
  induction rem with
  | zero => intro j pad; rfl
  | succ rem ih =>
    intro j pad
    rw [List.range'_succ, List.map_cons]
    simp only [rebuildPadLoop, svcPadLoop, Option.bind_eq_bind]
    cases hinfo : bitInfo s.label s.sid j with
    | none => rfl
    | some info =>
      simp only [Option.some_bind]
      cases hxor : xorStrict pad (prf_labeled H (seedAt s idx j) info (qBytes s)) with
      | none => rfl
      | some pad' =>
        simp only [Option.some_bind]
        exact ih (j + 1) pad'

/-- The sender pad loop succeeds and preserves the pad length whenever the
bit positions stay below 2^16 (the `_i2osp(j, 2)` bound). -/
theorem svcPadLoop_some (H : Hash) (s : OTService) (t : Nat)
    (h32 : ∀ b, (H.sha b).length = 32) :
    ∀ (rem j : Nat) (pad : Bytes), pad.length = qBytes s → j + rem ≤ 65536 →
      ∃ pad', svcPadLoop H s t j rem pad = some pad' ∧ pad'.length = qBytes s := by
  intro rem
  induction rem with
  | zero => intro j pad hlen _; exact ⟨pad, rfl, hlen⟩
  | succ rem ih =>
    intro j pad hlen hj
    have hinfo : bitInfo s.label s.sid j
        = some (s.label ++ [124, 106, 61] ++ beBytes j 2 ++ [124, 115, 105, 100, 61] ++ s.sid) := by
      unfold bitInfo i2osp
      rw [if_pos (by norm_num; omega)]
      rfl
    have hxlen : (prf_labeled H (seedAt s t j)
        (s.label ++ [124, 106, 61] ++ beBytes j 2 ++ [124, 115, 105, 100, 61] ++ s.sid)
        (qBytes s)).length = qBytes s := prf_labeled_length _ _ _ _ h32
    have hxor : xorStrict pad (prf_labeled H (seedAt s t j)
        (s.label ++ [124, 106, 61] ++ beBytes j 2 ++ [124, 115, 105, 100, 61] ++ s.sid)
        (qBytes s)) = some (zipXor pad (prf_labeled H (seedAt s t j)
          (s.label ++ [124, 106, 61] ++ beBytes j 2 ++ [124, 115, 105, 100, 61] ++ s.sid)
          (qBytes s))) := by
      unfold xorStrict
      rw [if_pos (by rw [hlen, hxlen])]
    have hzlen : (zipXor pad (prf_labeled H (seedAt s t j)
        (s.label ++ [124, 106, 61] ++ beBytes j 2 ++ [124, 115, 105, 100, 61] ++ s.sid)
        (qBytes s))).length = qBytes s := by
      rw [zipXor_length, hlen, hxlen]
      omega
    simp only [svcPadLoop, hinfo, Option.bind_eq_bind, Option.some_bind, hxor]
    exact ih (j + 1) _ hzlen (by omega)

/-- `q < 2^(8 * q_bytes)`: the fixed encoding length fits any scalar. -/
theorem q_lt_pow_qBytes (q : Nat) : q < 2 ^ (8 * ((bitLen q + 7) / 8)) :=
  lt_of_lt_of_le (lt_two_pow_bitLen q) (Nat.pow_le_pow_right (by norm_num) (by omega))

/-- Characterization of `CT_t`: the encoded payload element XOR the pad. -/
theorem svcCT_some (H : Hash) (s : OTService) (t : Nat)
    (h32 : ∀ b, (H.sha b).length = 32) (hl : svcL s ≤ 65536) (hq : 0 < s.G.q) :
    ∃ padt, svcPad H s t = some padt ∧ padt.length = qBytes s ∧
      svcCT H s t = some (zipXor (beBytes (s.payload.getD t 0 % s.G.q) (qBytes s)) padt)
      ∧ (zipXor (beBytes (s.payload.getD t 0 % s.G.q) (qBytes s)) padt).length = qBytes s := by
  obtain ⟨padt, hpad, hplen⟩ := svcPadLoop_some H s t h32 (svcL s) 0
    (List.replicate (qBytes s) 0) (by simp) (by omega)
  refine ⟨padt, hpad, hplen, ?_, ?_⟩
  · unfold svcCT
    rw [show svcPad H s t = some padt from hpad]
    simp only [Option.bind_eq_bind, Option.some_bind]
    have hmt : i2osp (s.payload.getD t 0 % s.G.q) (qBytes s)
        = some (beBytes (s.payload.getD t 0 % s.G.q) (qBytes s)) := by
      unfold i2osp
      rw [if_pos]
      exact lt_of_lt_of_le (Nat.mod_lt _ hq) (le_of_lt (q_lt_pow_qBytes s.G.q))
    rw [hmt]
    simp only [Option.some_bind]
    unfold xorStrict
    rw [if_pos (by rw [beBytes_length, hplen])]
  · rw [zipXor_length, beBytes_length, hplen]
    omega

theorem getD_map_range {β : Type} (n i : Nat) (g : Nat → β) (d : β) (h : i < n) :
    ((List.range n).map g).getD i d = g i := by
  rw [List.getD_eq_getElem?_getD, List.getElem?_map, List.getElem?_range h]
  rfl

theorem getD_mem {α : Type} (l : List α) (i : Nat) (d : α) (h : i < l.length) :
    l.getD i d ∈ l := by
  rw [List.getD_eq_getElem?_getD, List.getElem?_eq_getElem h]
  exact List.getElem_mem h

/-- 1-out-of-m OT correctness *if the per-bit senders were prepared*: a
receiver over the same group and label obtains exactly `payload[idx]`
whenever every per-bit sender carries a secret exponent (`aL j`) and each
nested 1-out-of-2 OT passes its checks.  (The repository never calls
`prepare()` on a service's senders, so no service it constructs satisfies
the preparation hypothesis `ha`.) -/
theorem choose_correct (H : Hash) (s : OTService) (idx : Nat) (bs aL : Nat → Nat)
    (h32 : ∀ b, (H.sha b).length = 32)
    (hp : 1 < s.G.p) (hq : 1 < s.G.q)
    (hwf : ∀ x ∈ s.payload, 1 ≤ x ∧ x < s.G.q)
    (hidx : idx < svcM s)
    (hl : svcL s ≤ 65536)
    (ha : ∀ j < svcL s, s.a j = some (aL j))
    (hseeds : ∀ j < svcL s, (s.seeds0 j).length = 32 ∧ (s.seeds1 j).length = 32)
    (hot : ∀ j < svcL s, (respond H s.G (aL j) (generateB s.G (bs j) ((idx >>> j) &&& 1)
      (otA s.G (aL j))) (s.seeds0 j) (s.seeds1 j)).isSome) :
    choose H s.G s.label s idx bs = some (s.payload.getD idx 0) := by
  have hq0 : 0 < s.G.q := by omega
  -- step 1: the ℓ nested OTs deliver the seeds of the chosen index
  have hseedsM : (List.range (svcL s)).mapM (chooseSeed H s.G s idx bs)
      = some ((List.range (svcL s)).map (seedAt s idx)) := by
    apply mapM_some
    intro j hj
    have hjl : j < svcL s := List.mem_range.mp hj
    exact chooseSeed_correct H s idx bs j (aL j) (ha j hjl) h32 hp (hseeds j hjl).1
      (hseeds j hjl).2 (hot j hjl)
  -- step 2: the rebuilt pad is the sender's pad for the chosen index
  obtain ⟨padI, hpadI, hpadIlen, hctI, hctIlen⟩ := svcCT_some H s idx h32 hl hq0
  have hrebuild : rebuildPadLoop H s.label s.sid (qBytes s) 0
      ((List.range (svcL s)).map (seedAt s idx)) (List.replicate (qBytes s) 0)
      = some padI := by
    rw [List.range_eq_range', padLoop_agree H s idx (svcL s) 0]
    exact hpadI
  -- step 3: the ciphertext vector
  have hcts : svcCiphertexts H s
      = some ((List.range (svcM s)).map (fun t => (svcCT H s t).getD [])) := by
    apply mapM_some
    intro t _
    obtain ⟨padt, _, _, hct, _⟩ := svcCT_some H s t h32 hl hq0
    rw [hct]
    rfl
  have hctidx : ((List.range (svcM s)).map (fun t => (svcCT H s t).getD [])).getD idx []
      = zipXor (beBytes (s.payload.getD idx 0 % s.G.q) (qBytes s)) padI := by
    rw [getD_map_range _ _ _ _ hidx, hctI]
    rfl
  -- assemble chooseVal
  have hval : chooseVal H s.G s.label s idx bs
      = some (s.payload.getD idx 0) := by
    unfold chooseVal
    rw [if_neg (by omega)]
    rw [hseedsM]
    simp only [Option.bind_eq_bind, Option.some_bind]
    rw [hrebuild]
    simp only [Option.some_bind]
    rw [hcts]
    simp only [Option.some_bind]
    rw [hctidx]
    rw [if_neg (by rw [hctIlen]; omega)]
    have hxor : xorStrict (zipXor (beBytes (s.payload.getD idx 0 % s.G.q) (qBytes s)) padI) padI
        = some (zipXor (zipXor (beBytes (s.payload.getD idx 0 % s.G.q) (qBytes s)) padI) padI) := by
      unfold xorStrict
      rw [if_pos (by rw [hctIlen, hpadIlen])]
    rw [hxor]
    simp only [Option.some_bind]
    have hcancel : zipXor (zipXor (beBytes (s.payload.getD idx 0 % s.G.q) (qBytes s)) padI) padI
        = beBytes (s.payload.getD idx 0 % s.G.q) (qBytes s) := by
      apply zipXor_cancel
      rw [beBytes_length, hpadIlen]
    rw [hcancel]
    have helem : s.payload.getD idx 0 ∈ s.payload := getD_mem s.payload idx 0 hidx
    have hlt : s.payload.getD idx 0 % s.G.q = s.payload.getD idx 0 :=
      Nat.mod_eq_of_lt (hwf _ helem).2
    rw [hlt, os2ip_beBytes]
    calc s.payload.getD idx 0 < s.G.q := (hwf _ helem).2
      _ < 2 ^ (8 * qBytes s) := q_lt_pow_qBytes s.G.q
      _ = 256 ^ qBytes s := by rw [pow_mul]; norm_num
  -- the final Z_q^* check passes
  unfold choose
  rw [hval]
  simp only [Option.bind_eq_bind, Option.some_bind]
  have helem : s.payload.getD idx 0 ∈ s.payload := getD_mem s.payload idx 0 hidx
  rw [if_pos ⟨(hwf _ helem).1, (hwf _ helem).2⟩]

/-- The ciphertext vector computes whenever the bit count is bounded and
`q` is positive. -/
theorem svcCiphertexts_some (H : Hash) (s : OTService)
    (h32 : ∀ b, (H.sha b).length = 32) (hl : svcL s ≤ 65536) (hq : 0 < s.G.q) :
    svcCiphertexts H s
      = some ((List.range (svcM s)).map (fun t => (svcCT H s t).getD [])) := by
  apply mapM_some
  intro t _
  obtain ⟨padt, _, _, hct, _⟩ := svcCT_some H s t h32 hl hq
  rw [hct]
  rfl

/-- `self.l = ceil(log2 m) if m > 1 else 1` is always at least 1: every
service runs at least one nested 1-out-of-2 OT. -/
theorem svcL_pos (s : OTService) : 0 < svcL s := by
  unfold svcL
  split
  · rename_i h
    unfold ceilLog2
    rw [if_neg (by omega : ¬(svcM s ≤ 1))]
    by_contra h0
    have hlt := lt_two_pow_bitLen (svcM s - 1)
    have hz : bitLen (svcM s - 1) = 0 := by omega
    rw [hz] at hlt
    omega
  · omega

/-- On a service whose first per-bit sender was never prepared, `choose`
fails on every index: its very first nested OT reads the non-existent
`S2.A` (ot_1ofm.py:122). -/
theorem choose_unprepared (H : Hash) (rG : DDHGrp) (rlabel : Bytes) (s : OTService)
    (idx : Nat) (bs : Nat → Nat) (ha : s.a 0 = none) :
    choose H rG rlabel s idx bs = none := by
  have hval : chooseVal H rG rlabel s idx bs = none := by
    unfold chooseVal
    split
    · rfl
    · have hseed0 : chooseSeed H rG s idx bs 0 = none := by
        unfold chooseSeed
        dsimp only
        rw [ha]
        rfl
      obtain ⟨k, hk⟩ : ∃ k, svcL s = k + 1 := by
        have := svcL_pos s
        exact ⟨svcL s - 1, by omega⟩
      rw [hk, List.range_succ_eq_map, List.mapM_cons, hseed0]
      rfl
  unfold choose
  rw [hval]
  rfl

/-- Characterization of a successful `OT1ofmSender.__init__`: all three
validation checks pass, the ciphertexts compute, and the resulting service
has only unprepared per-bit senders. -/
theorem mkService_eq (H : Hash) (G : DDHGrp) (payload : List Nat) (label sid : Bytes)
    (s0 s1 : Nat → Bytes) (cts : List Bytes)
    (hord : powMod G.g G.q G.p = 1 ∧ powMod G.g 2 G.p ≠ 1)
    (hne : payload.length ≠ 0)
    (hwf : ∀ x ∈ payload, 1 ≤ x ∧ x < G.q)
    (hcts : svcCiphertexts H ⟨G, payload, label, sid, s0, s1, fun _ => none⟩ = some cts) :
    mkService H G payload label sid s0 s1
      = some ⟨G, payload, label, sid, s0, s1, fun _ => none⟩ := by
  unfold mkService
  rw [if_neg (not_not_intro hord), if_neg hne, if_neg (not_not_intro hwf), hcts]

/-! ### Adaptive sender (src/roles/adaptive_sender.py) -/

/-- The ASCII bytes of the `b"ROW"` service label. -/
def ROW_LABEL : Bytes := [82, 79, 87]

/-- The ASCII bytes of the `b"COL"` service label. -/
def COL_LABEL : Bytes := [67, 79, 76]

/-- `self.lambda_bytes = max(16, (q.bit_length() // 2 + 7) // 8)`. -/
def lambdaBytes (q : Nat) : Nat := max 16 ((bitLen q / 2 + 7) / 8)

/-- The spec's formula `λ_bytes = max(16, ⌈⌈log₂ q⌉/2 / 8⌉)`, i.e.
`max(16, ⌈⌈log₂ q⌉ / 16⌉)` with exact division. -/
def lambdaBytesSpec (q : Nat) : Nat := max 16 ((Nat.clog 2 q + 15) / 16)

/-- `_as_perfect_square`: `isqrt` plus the exactness check. -/
def gridDim (N : Nat) : Option Nat :=
  if Nat.sqrt N * Nat.sqrt N = N then some (Nat.sqrt N) else none

/-- Long-lived `AdaptiveSender` state: group, grid dimension, message grid,
pairwise-hash parameters and the row/column scalars (the randomness of
`__init__` is taken as parameters). -/
structure Sender where
  G : DDHGrp
  m : Nat
  X : List (List Bytes)
  alpha : Nat
  beta : Nat
  R : List Nat
  C : List Nat

/-- `AdaptiveSender.__init__` up to (and excluding) the commitment grid:
strict group check, perfect-square check and row-major reshape. -/
def mkSender (G : DDHGrp) (msgs : List Bytes) (alpha beta : Nat) (R C : List Nat) :
    Option Sender :=
  if ¬(2 < G.p ∧ 2 < G.q ∧ powMod G.g G.q G.p = 1 ∧ powMod G.g 2 G.p ≠ 1) then none
  else
    match gridDim msgs.length with
    | none => none
    | some m =>
      some ⟨G, m, (List.range m).map (fun r => (msgs.drop (r * m)).take m), alpha, beta, R, C⟩

/-- `_h_pairwise_to_bytes` (the effective, second definition, identical in
sender and receiver): `y = (alpha * ((x mod p) mod q) + beta) mod q`,
truncated to the low `8·λ` bits (`y & ((1 << 8λ) - 1)`, here written as
`mod 2^(8λ)`) and encoded as `λ` big-endian bytes. -/
def pairHash (p q alpha beta lam elem : Nat) : Bytes :=
  beBytes ((alpha * (elem % p % q) + beta) % q % 2 ^ (8 * lam)) lam

/-- `_precompute_commitments`: `Y[i][j] = commit(X[i][j], h((g^R_i)^C_j))`
with empty aad. -/
def senderY (H : Hash) (sd : Sender) : Option (List (List Bytes)) :=
  (List.range sd.m).mapM (fun i =>
    (List.range sd.m).mapM (fun j =>
      commit H ((sd.X.getD i []).getD j [])
        (pairHash sd.G.p sd.G.q sd.alpha sd.beta (lambdaBytes sd.G.q)
          (grpPow sd.G (grpPow sd.G sd.G.g (sd.R.getD i 0)) (sd.C.getD j 0)))
        []))

/-- `AdaptiveSender.public_setup()`. -/
structure Setup where
  m : Nat
  commitments : List (List Bytes)
  alpha : Nat
  beta : Nat
  lambda_bytes : Nat
  group_p : Nat
  group_q : Nat

/-- Publish `{m, Y, (alpha, beta, lambda_bytes), p, q}`. -/
def publicSetup (H : Hash) (sd : Sender) : Option Setup :=
  (senderY H sd).map (fun Y =>
    ⟨sd.m, Y, sd.alpha, sd.beta, lambdaBytes sd.G.q, sd.G.p, sd.G.q⟩)

/-- The per-round payload of `prepare_query_payload`. -/
structure RoundPayload where
  row_ot_payload : List Nat
  col_ot_payload : List Nat
  g_pow_inv_rr : Nat

/-- `AdaptiveSender.prepare_query_payload` with the fresh blinders `r_R, r_C`
as parameters; `_inv_mod_q` raises on a zero argument, and computes the
inverse as `pow(x, q-2, q)` (Fermat). -/
def prepareQueryPayload (sd : Sender) (rR rC : Nat) : Option RoundPayload :=
  let row := sd.R.map (fun Ri => Ri * rR % sd.G.q)
  let col := sd.C.map (fun Cj => Cj * rC % sd.G.q)
  let rr := rR * rC % sd.G.q
  if rr % sd.G.q = 0 then none
  else some ⟨row, col, grpPow sd.G sd.G.g (powMod rr (sd.G.q - 2) sd.G.q)⟩

/-! ### Adaptive receiver (src/roles/adaptive_receiver.py) -/

/-- Receiver state after a successful `ingest_public_setup`. -/
structure RecvState where
  G : DDHGrp
  m : Nat
  Y : List (List Bytes)
  alpha : Nat
  beta : Nat
  lambda_bytes : Nat
  pub_p : Nat
  pub_q : Nat

/-- `AdaptiveReceiver.ingest_public_setup`: grid-shape checks and the
cross-check of the published group parameters against the receiver's own. -/
def ingestPublicSetup (G : DDHGrp) (st : Setup) : Option RecvState :=
  if st.m = 0 then none
  else if st.commitments.length ≠ st.m then none
  else if ¬(∀ row ∈ st.commitments, row.length = st.m) then none
  else if st.group_p ≠ G.p then none
  else if st.group_q ≠ G.q then none
  else some ⟨G, st.m, st.commitments, st.alpha, st.beta, st.lambda_bytes, st.group_p, st.group_q⟩

/-- The error classes `select_and_open` can raise, in source order. -/
inductive QErr
  | indexRange
  | payloadLen
  | payloadRange
  | subgroup
  | chooserRow
  | chooserCol
  | zeroScalar
  | openFail
deriving DecidableEq

/-- `AdaptiveReceiver.select_and_open(i, j, round_payload, row_chooser,
col_chooser, aad)`, following the source's check order exactly: index range,
payload lengths, payload elements in `Z_q`, the subgroup test on
`g_pow_inv_rr`, the two chooser runs (each reduced mod q), the zero-scalar
rejection, the reconstruction `E = g_pow_inv_rr^(u·v mod q)`, and the
commitment opening with `K = h(E)`. -/
def selectAndOpen (H : Hash) (st : RecvState) (i j : Nat) (rp : RoundPayload)
    (rowChooser colChooser : List Nat → Nat → Option Nat) (aad : Bytes) :
    Except QErr Bytes :=
  if ¬(i < st.m ∧ j < st.m) then .error .indexRange
  else if ¬(rp.row_ot_payload.length = st.m ∧ rp.col_ot_payload.length = st.m) then
    .error .payloadLen
  else if ¬(∀ x ∈ rp.row_ot_payload ++ rp.col_ot_payload, x < st.pub_q) then
    .error .payloadRange
  else if powMod rp.g_pow_inv_rr st.pub_q st.pub_p ≠ 1 then .error .subgroup
  else
    match rowChooser rp.row_ot_payload i with
    | none => .error .chooserRow
    | some u0 =>
      match colChooser rp.col_ot_payload j with
      | none => .error .chooserCol
      | some v0 =>
        let u := u0 % st.pub_q
        let v := v0 % st.pub_q
        if u = 0 ∨ v = 0 then .error .zeroScalar
        else
          let e := u * v % st.pub_q
          let gE := powMod rp.g_pow_inv_rr e st.pub_p
          let K := pairHash st.G.p st.pub_q st.alpha st.beta st.lambda_bytes gE
          match copen H ((st.Y.getD i []).getD j []) K aad with
          | none => .error .openFail
          | some X => .ok X

/-- `make_chooser(group, label, service)` from src/channel/ot_1ofm.py: a
closure that checks the passed payload list against the service payload
("extra paranoia" comparison, always run) and then runs `choose`.  The
`OT1ofmReceiver(group, label)` construction re-runs the strict group check. -/
def makeChooser (H : Hash) (rG : DDHGrp) (label : Bytes) (svc : OTService)
    (bs : Nat → Nat) : List Nat → Nat → Option Nat :=
  fun pl idx =>
    if ¬(powMod rG.g rG.q rG.p = 1 ∧ powMod rG.g 2 rG.p ≠ 1) then none
    else if pl ≠ svc.payload then none
    else choose H rG label svc idx bs

/-! ### Concrete instances used by the witnesses -/

/-- A concrete stand-in for the abstract SHA-256 digest (32-byte output). -/
def shaW : Bytes → Bytes :=
  fun b => List.replicate 32 (b.foldl (fun acc x => (acc + x) % 256) 0)

/-- A concrete stand-in for the abstract HMAC-SHA256 (32-byte output). -/
def hmacW : Bytes → Bytes → Bytes :=
  fun k d => List.replicate 32 ((k.foldl (fun acc x => (acc + x) % 256) 0
    + d.foldl (fun acc x => (acc + x) % 256) 0) % 256)

/-- The concrete hash pair for witnesses. -/
def HW : Hash := ⟨shaW, hmacW⟩

theorem HW_sha32 : ∀ b, (HW.sha b).length = 32 := fun _ => List.length_replicate _ _

theorem HW_hmac32 : ∀ k d, (HW.hmac k d).length = 32 := fun _ _ => List.length_replicate _ _

/-- A tiny group for witnesses: p = 23, q = 11, g = 2 (2 has exact order 11
modulo 23). -/
def G0 : DDHGrp := ⟨23, 11, 2⟩

/-! ### Claims -/

/-- C3 (counterexample): the claim quantifies over *every* message, but
`commit` raises `struct.error` on a message of 2^32 bytes (the
`struct.pack(">I", len(msg))` header overflows), so the round trip is
impossible there. -/
theorem c3_counterexample : commit HW (List.replicate (2 ^ 32) 0) [1] [] = none := by
  have hlen : (List.replicate (2 ^ 32) (0 : Nat)).length = 2 ^ 32 :=
    List.length_replicate _ _
  have hio : i2osp (2 ^ 32) 4 = none := by
    unfold i2osp
    rw [if_neg (by norm_num)]
  unfold commit
  rw [if_neg (by simp), hlen, hio]

/-- C3 (amended): commitment round trip — for every message of fewer than
2^32 bytes, every non-empty key and every aad,
`open(commit(msg, K, aad), K, aad)` succeeds and returns `msg`. -/
theorem c3_commit_roundtrip (H : Hash) (message key aad : Bytes)
    (h32 : ∀ b, (H.sha b).length = 32) (hm32 : ∀ k d, (H.hmac k d).length = 32)
    (hkey : key.length ≠ 0) (hmsg : message.length < 2 ^ 32) :
    ∃ blob, commit H message key aad = some blob ∧ copen H blob key aad = some message :=
  commit_copen_roundtrip H message key aad h32 hm32 hkey hmsg

/-- C3 witness: the round trip at a concrete message, key and aad. -/
theorem c3_commit_roundtrip_witness :
    ∃ blob, commit HW [5, 6] [7] [9] = some blob ∧ copen HW blob [7] [9] = some [5, 6] :=
  c3_commit_roundtrip HW [5, 6] [7] [9] HW_sha32 HW_hmac32 (by decide) (by norm_num)

/-- C4: 1-out-of-2 OT correctness — for equal-length messages, a choice bit
`c ∈ {0,1}` and any exponents `a, b` for which the exchange (`prepare`,
`generate_B`, `respond`, `recover`) completes, the receiver recovers `m_c`. -/
theorem c4_ot2_correctness (H : Hash) (G : DDHGrp) (a b c : Nat) (m0 m1 : Bytes)
    (h32 : ∀ bs, (H.sha bs).length = 32) (hp : 1 < G.p) (hc : c = 0 ∨ c = 1)
    (c0 c1 : Bytes)
    (hres : respond H G a (generateB G b c (otA G a)) m0 m1 = some (c0, c1)) :
    recover H G b c (otA G a) (c0, c1) = (if c = 0 then m0 else m1) :=
  ot2_correct H G a b c m0 m1 h32 hp hc c0 c1 hres

/-- C4 witness: a complete exchange in the small group with c = 1. -/
theorem c4_ot2_correctness_witness :
    recover HW G0 4 1 (otA G0 3)
      (((respond HW G0 3 (generateB G0 4 1 (otA G0 3)) [10, 20] [30, 40]).getD ([], [])).1,
       ((respond HW G0 3 (generateB G0 4 1 (otA G0 3)) [10, 20] [30, 40]).getD ([], [])).2)
      = [30, 40] := by
  have h : respond HW G0 3 (generateB G0 4 1 (otA G0 3)) [10, 20] [30, 40]
      = some (((respond HW G0 3 (generateB G0 4 1 (otA G0 3)) [10, 20] [30, 40]).getD ([], [])).1,
              ((respond HW G0 3 (generateB G0 4 1 (otA G0 3)) [10, 20] [30, 40]).getD ([], [])).2) := by
    decide
  have hmain := c4_ot2_correctness HW G0 3 4 1 [10, 20] [30, 40] HW_sha32 (by decide)
    (Or.inr rfl) _ _ h
  simpa using hmain

/-- C5 (counterexample): the group's random-exponent sampler
(`DDHGroup.get_random_exponent`, used by both 1-out-of-2 OT parties) draws
uniformly from `[1, p-1]`, not from `Z_q^* = {1..q-1}`: the valid draw
`q - 1` produces the output `q`, which is outside `{1..q-1}`. -/
theorem c5_counterexample :
    MODP_Q - 1 < MODP_P - 1
    ∧ getRandomExponent (MODP_Q - 1) = MODP_Q
    ∧ ¬(1 ≤ getRandomExponent (MODP_Q - 1) ∧ getRandomExponent (MODP_Q - 1) < MODP_Q) := by
  refine ⟨by decide, by decide, by decide⟩

/-- C5 (amended): the adaptive sender's non-zero scalar sampler
(`_rand_nonzero_scalar`) does produce values in `Z_q^* = {1..q-1}`, while
the group sampler `get_random_exponent` produces values in `[1, p-1]`. -/
theorem c5_sampler_ranges (p q r1 r2 : Nat) (h1 : r1 < p - 1) (h2 : r2 < q - 1) :
    (1 ≤ getRandomExponent r1 ∧ getRandomExponent r1 ≤ p - 1)
    ∧ (1 ≤ randNonzeroScalar r2 ∧ randNonzeroScalar r2 < q) := by
  unfold getRandomExponent randNonzeroScalar
  omega

/-- C5 witness: the ranges at concrete draws for the hardcoded group. -/
theorem c5_sampler_ranges_witness :
    (1 ≤ getRandomExponent 0 ∧ getRandomExponent 0 ≤ MODP_P - 1)
    ∧ (1 ≤ randNonzeroScalar 0 ∧ randNonzeroScalar 0 < MODP_Q) :=
  c5_sampler_ranges MODP_P MODP_Q 0 0 (by decide) (by decide)

/-- C6: label equivalence of the (spec-modelled) `prf_labeled` with
`prf(key ‖ label, ·)`, together with the counter-mode closed form of `prf`
(concatenated `SHA256(key ‖ be_u32(counter))` blocks truncated to the
requested length). -/
theorem c6_prf_labeled_equiv (H : Hash) (h32 : ∀ b, (H.sha b).length = 32) :
    (∀ key label n, prf_labeled H key label n = prf H (key ++ label) n)
    ∧ (∀ key n, prf H key n = (prfBlocks H key 0 ((n + 31) / 32)).take n) :=
  ⟨fun _ _ _ => rfl, fun key n => prf_closed H key n h32⟩

/-- C6 witness: both parts at concrete arguments. -/
theorem c6_prf_labeled_equiv_witness :
    prf_labeled HW [1] [2] 40 = prf HW ([1] ++ [2]) 40
    ∧ prf HW [3] 40 = (prfBlocks HW [3] 0 ((40 + 31) / 32)).take 40 :=
  ⟨(c6_prf_labeled_equiv HW HW_sha32).1 [1] [2] 40,
   (c6_prf_labeled_equiv HW HW_sha32).2 [3] 40⟩

/-- `⌈log₂ (2^256 + 1)⌉ = 257`, computed via the clog adjunction. -/
theorem clog_two_pow256_add_one : Nat.clog 2 (2 ^ 256 + 1) = 257 := by
  have h1 : Nat.clog 2 (2 ^ 256 + 1) ≤ 257 :=
    (Nat.le_pow_iff_clog_le (by norm_num)).mp (by norm_num)
  have h2 : 256 < Nat.clog 2 (2 ^ 256 + 1) := by
    rw [← Nat.pow_lt_iff_lt_clog (by norm_num)]
    norm_num
  omega

/-- C7 (counterexample): the code computes
`lambda_bytes = max(16, (q.bit_length() // 2 + 7) // 8)` (floor on the
halved bit length), which differs from the spec's
`max(16, ⌈⌈log₂ q⌉/2 / 8⌉)` at any subgroup order of bit length
≡ 1 (mod 16) ≥ 257, e.g. q = 2^256 + 1: the code gives 16, the spec 17. -/
theorem c7_counterexample :
    lambdaBytes (2 ^ 256 + 1) = 16
    ∧ lambdaBytesSpec (2 ^ 256 + 1) = 17
    ∧ lambdaBytes (2 ^ 256 + 1) ≠ lambdaBytesSpec (2 ^ 256 + 1) := by
  have hlog : Nat.log 2 (2 ^ 256 + 1) = 256 :=
    Nat.log_eq_of_pow_le_of_lt_pow (by norm_num) (by norm_num)
  have hb : bitLen (2 ^ 256 + 1) = 257 := by
    rw [bitLen_eq_log _ (by norm_num), hlog]
  have h1 : lambdaBytes (2 ^ 256 + 1) = 16 := by
    unfold lambdaBytes
    rw [hb]
    decide
  have h2 : lambdaBytesSpec (2 ^ 256 + 1) = 17 := by
    unfold lambdaBytesSpec
    rw [clog_two_pow256_add_one]
    decide
  exact ⟨h1, h2, by omega⟩

/-- C7 (amended): the hash output length is
`max(16, (⌊bits(q)/2⌋ + 7) div 8)` where `bits(q)` is the bit length of q;
this agrees with the spec's `max(16, ⌈⌈log₂ q⌉/2 / 8⌉)` for every q whose
bit length is not ≡ 1 (mod 16), and for every power of two — in particular
for the shipped 2047-bit subgroup order. -/
theorem c7_lambda_bytes (q : Nat) (hq : 0 < q)
    (h : bitLen q % 16 ≠ 1 ∨ ∃ k, q = 2 ^ k) :
    lambdaBytes q = lambdaBytesSpec q := by
  by_cases hpow : ∃ k, q = 2 ^ k
  · obtain ⟨k, rfl⟩ := hpow
    have hb : bitLen (2 ^ k) = k + 1 := by
      rw [bitLen_eq_log _ (Nat.pos_pow_of_pos k (by norm_num)), Nat.log_pow (by norm_num)]
    rw [lambdaBytes, lambdaBytesSpec, hb, Nat.clog_pow 2 k (by norm_num)]
    omega
  · have hm : bitLen q % 16 ≠ 1 := h.resolve_right hpow
    have hlt : 2 ^ Nat.log 2 q < q := by
      rcases Nat.lt_or_ge (2 ^ Nat.log 2 q) q with h' | h'
      · exact h'
      · exact absurd ⟨Nat.log 2 q, le_antisymm h' (Nat.pow_log_le_self 2 (by omega))⟩ hpow
    have hclog : Nat.clog 2 q = bitLen q := by
      have hub : Nat.clog 2 q ≤ Nat.log 2 q + 1 :=
        (Nat.le_pow_iff_clog_le (by norm_num)).mp
          (le_of_lt (Nat.lt_pow_succ_log_self (by norm_num) q))
      have hlb : Nat.log 2 q < Nat.clog 2 q := by
        rw [← Nat.pow_lt_iff_lt_clog (by norm_num)]
        exact hlt
      rw [bitLen_eq_log q hq]
      omega
    rw [lambdaBytes, lambdaBytesSpec, hclog]
    omega

set_option maxRecDepth 10000 in
/-- The shipped subgroup order has bit length 2047. -/
theorem bitLen_MODP_Q : bitLen MODP_Q = 2047 := by
  have hlog : Nat.log 2 MODP_Q = 2046 :=
    Nat.log_eq_of_pow_le_of_lt_pow (by decide) (by decide)
  rw [bitLen_eq_log _ (by decide), hlog]

/-- C7 witness: the two formulas agree at the shipped subgroup order
`MODP_Q` (bit length 2047). -/
theorem c7_lambda_bytes_witness :
    0 < MODP_Q ∧ bitLen MODP_Q % 16 ≠ 1 ∧ lambdaBytes MODP_Q = lambdaBytesSpec MODP_Q :=
  ⟨by decide, by simp [bitLen_MODP_Q],
   c7_lambda_bytes MODP_Q (by decide) (Or.inl (by simp [bitLen_MODP_Q]))⟩

/-- C10: totality of `verify` — it never raises (it is a total boolean
function of its inputs) and returns `True` exactly when `open` succeeds
and, when `expected` is supplied, the opened message equals it. -/
theorem c10_verify_totality (H : Hash) (blob key aad : Bytes) (expected : Option Bytes) :
    verify H blob key aad expected = true
      ↔ ∃ msg, copen H blob key aad = some msg
          ∧ (expected = none ∨ expected = some msg) := by
  unfold verify
  cases hopen : copen H blob key aad with
  | none => simp
  | some msg =>
    cases expected with
    | none => simp
    | some e =>
      simp only [beq_iff_eq, Option.some.injEq]
      constructor
      · intro h
        exact ⟨msg, rfl, Or.inr h.symm⟩
      · rintro ⟨m, hm, hor⟩
        rcases hor with h' | h'
        · exact absurd h' (by simp)
        · cases hm
          exact h'.symm

/-- C8: subgroup rejection — whenever `g_pow_inv_rr` fails the test
`x^q ≡ 1 (mod p)`, `select_and_open` returns an error that is raised before
either OT chooser runs (the result is the same for every pair of choosers)
and before any commitment is opened (the error is one of the four
pre-chooser checks, never `openFail`), so the query produces no output. -/
theorem c8_subgroup_rejection (H : Hash) (st : RecvState) (i j : Nat) (rp : RoundPayload)
    (aad : Bytes) (hsub : powMod rp.g_pow_inv_rr st.pub_q st.pub_p ≠ 1) :
    ∀ rowChooser colChooser,
      ∃ e, selectAndOpen H st i j rp rowChooser colChooser aad = Except.error e
        ∧ (e = QErr.indexRange ∨ e = QErr.payloadLen ∨ e = QErr.payloadRange
            ∨ e = QErr.subgroup) := by
  intro rowChooser colChooser
  unfold selectAndOpen
  by_cases h1 : ¬(i < st.m ∧ j < st.m)
  · rw [if_pos h1]
    exact ⟨QErr.indexRange, rfl, Or.inl rfl⟩
  · rw [if_neg h1]
    by_cases h2 : ¬(rp.row_ot_payload.length = st.m ∧ rp.col_ot_payload.length = st.m)
    · rw [if_pos h2]
      exact ⟨QErr.payloadLen, rfl, Or.inr (Or.inl rfl)⟩
    · rw [if_neg h2]
      by_cases h3 : ¬(∀ x ∈ rp.row_ot_payload ++ rp.col_ot_payload, x < st.pub_q)
      · rw [if_pos h3]
        exact ⟨QErr.payloadRange, rfl, Or.inr (Or.inr (Or.inl rfl))⟩
      · rw [if_neg h3, if_pos hsub]
        exact ⟨QErr.subgroup, rfl, Or.inr (Or.inr (Or.inr rfl))⟩

/-- Concrete receiver state for the C8/C9 witnesses (m = 1 grid). -/
def st1 : RecvState := ⟨G0, 1, [[[0]]], 3, 4, 16, 23, 11⟩

/-- A round payload whose `g_pow_inv_rr = 5` is outside the order-11
subgroup of `Z_23^*`. -/
def rp0 : RoundPayload := ⟨[1], [1], 5⟩

/-- A round payload with `g_pow_inv_rr = 1` (passes the subgroup check). -/
def rp1 : RoundPayload := ⟨[1], [1], 1⟩

/-- C8 witness: a concrete payload failing the subgroup test is rejected. -/
theorem c8_subgroup_rejection_witness :
    ∃ e, selectAndOpen HW st1 0 0 rp0 (fun _ _ => some 3) (fun _ _ => some 3) []
        = Except.error e
      ∧ (e = QErr.indexRange ∨ e = QErr.payloadLen ∨ e = QErr.payloadRange
          ∨ e = QErr.subgroup) :=
  c8_subgroup_rejection HW st1 0 0 rp0 [] (by decide) (fun _ _ => some 3) (fun _ _ => some 3)

/-- C9: zero-scalar rejection — (a) `select_and_open` raises when either
chooser's result is ≡ 0 (mod q), before any commitment is opened; and
(b) `OT1ofmReceiver.choose` raises whenever the decrypted payload value is
not in `{1..q-1}`. -/
theorem c9_zero_scalar_rejection :
    (∀ (H : Hash) (st : RecvState) (i j : Nat) (rp : RoundPayload) (aad : Bytes)
        (rowCh colCh : List Nat → Nat → Option Nat) (u0 v0 : Nat),
      (i < st.m ∧ j < st.m) →
      (rp.row_ot_payload.length = st.m ∧ rp.col_ot_payload.length = st.m) →
      (∀ x ∈ rp.row_ot_payload ++ rp.col_ot_payload, x < st.pub_q) →
      powMod rp.g_pow_inv_rr st.pub_q st.pub_p = 1 →
      rowCh rp.row_ot_payload i = some u0 →
      colCh rp.col_ot_payload j = some v0 →
      (u0 % st.pub_q = 0 ∨ v0 % st.pub_q = 0) →
      selectAndOpen H st i j rp rowCh colCh aad = Except.error QErr.zeroScalar)
    ∧ (∀ (H : Hash) (rG : DDHGrp) (rlabel : Bytes) (s : OTService) (idx : Nat)
        (bs : Nat → Nat) (x : Nat),
        chooseVal H rG rlabel s idx bs = some x → ¬(1 ≤ x ∧ x < s.G.q) →
        choose H rG rlabel s idx bs = none) := by
  constructor
  · intro H st i j rp aad rowCh colCh u0 v0 h1 h2 h3 h4 hrow hcol hzero
    unfold selectAndOpen
    rw [if_neg (not_not_intro h1), if_neg (not_not_intro h2), if_neg (not_not_intro h3),
      if_neg (not_not_intro h4)]
    simp only [hrow, hcol]
    rw [if_pos hzero]
  · intro H rG rlabel s idx bs x hval hx
    unfold choose
    simp only [hval, Option.bind_eq_bind, Option.some_bind]
    rw [if_neg hx]

/-- A dishonest service for the C9 witness: its single payload element is
`q = 11`, so the decrypted value is `11 % 11 = 0`, outside `Z_q^*`. -/
def svc0 : OTService :=
  ⟨G0, [11], ROW_LABEL, List.replicate 16 1,
    fun _ => List.replicate 32 7, fun _ => List.replicate 32 9, fun _ => some 3⟩

set_option maxRecDepth 40000 in
/-- C9 witness: both rejection paths at concrete inputs. -/
theorem c9_zero_scalar_rejection_witness :
    selectAndOpen HW st1 0 0 rp1 (fun _ _ => some 0) (fun _ _ => some 1) []
      = Except.error QErr.zeroScalar
    ∧ choose HW G0 ROW_LABEL svc0 0 (fun _ => 4) = none :=
  ⟨c9_zero_scalar_rejection.1 HW st1 0 0 rp1 [] (fun _ _ => some 0) (fun _ _ => some 1)
      0 1 (by decide) (by decide) (by decide) (by decide) rfl rfl (Or.inl (by decide)),
   c9_zero_scalar_rejection.2 HW G0 ROW_LABEL svc0 0 (fun _ => 4) 0 (by decide) (by decide)⟩

/-- C2 (code bug): `OT1ofmSender.__init__` builds its per-bit
`DDHOTSender`s with `DDHOTSender(group)`, which stores only the group, and
no code of the repository ever calls `prepare()` on them, so they never
hold a secret exponent; the receiver's `choose` therefore fails on *every*
index of *every* service the constructor returns (the read of the
non-existent attribute `S2.A` at ot_1ofm.py:122), and never returns
`payload[idx]` as claimed. -/
theorem c2_choose_unprepared (H : Hash) (G rG : DDHGrp) (payload : List Nat)
    (label rlabel sid : Bytes) (s0 s1 : Nat → Bytes) (s : OTService)
    (idx : Nat) (bs : Nat → Nat)
    (hs : mkService H G payload label sid s0 s1 = some s) :
    choose H rG rlabel s idx bs = none := by
  apply choose_unprepared
  unfold mkService at hs
  split at hs
  · exact absurd hs (by simp)
  · split at hs
    · exact absurd hs (by simp)
    · split at hs
      · exact absurd hs (by simp)
      · split at hs
        · exact absurd hs (by simp)
        · injection hs with h
          rw [← h]

/-- The ROW service over payload `[3, 5]` exactly as `OT1ofmSender.__init__`
constructs it: both of its per-bit senders are unprepared. -/
def svc1 : OTService :=
  ⟨G0, [3, 5], ROW_LABEL, List.replicate 16 1,
    fun _ => List.replicate 32 7, fun _ => List.replicate 32 9, fun _ => none⟩

set_option maxRecDepth 40000 in
/-- C2 witness: the constructor succeeds on the concrete service, and
`choose` then fails at the valid index 1. -/
theorem c2_choose_unprepared_witness :
    choose HW G0 ROW_LABEL svc1 1 (fun _ => 4) = none :=
  c2_choose_unprepared HW G0 G0 [3, 5] ROW_LABEL ROW_LABEL (List.replicate 16 1)
    (fun _ => List.replicate 32 7) (fun _ => List.replicate 32 9) svc1 1 (fun _ => 4) rfl

/-! ### End-to-end query correctness (C1) -/

/-- A scalar in `{1..q-1}` is not divisible by `q`. -/
theorem not_dvd_of_lt_range (q x : Nat) (h : 1 ≤ x ∧ x < q) : ¬ q ∣ x := by
  intro hd
  have := Nat.eq_zero_of_dvd_of_lt hd h.2
  omega

/-- Blinding keeps honest payload elements in `Z_q^*` (q prime). -/
theorem blinded_wf (q rX : Nat) (hq : Nat.Prime q) (L : List Nat)
    (hL : ∀ x ∈ L, 1 ≤ x ∧ x < q) (hrX : 1 ≤ rX ∧ rX < q) :
    ∀ y ∈ L.map (fun x => x * rX % q), 1 ≤ y ∧ y < q := by
  intro y hy
  obtain ⟨x, hx, rfl⟩ := List.mem_map.mp hy
  have hq0 : 0 < q := by omega
  refine ⟨?_, Nat.mod_lt _ hq0⟩
  by_contra h0
  have hz : x * rX % q = 0 := by omega
  have hdvd : q ∣ x * rX := Nat.dvd_of_mod_eq_zero hz
  rcases (Nat.Prime.dvd_mul hq).mp hdvd with h' | h'
  · exact not_dvd_of_lt_range q x (hL x hx) h'
  · exact not_dvd_of_lt_range q rX hrX h'

/-- `g^{inv}` lies in the order-q subgroup whenever `g` does. -/
theorem gpir_subgroup (G : DDHGrp) (inv : Nat) (hp : 1 < G.p)
    (hord : powMod G.g G.q G.p = 1) :
    powMod (grpPow G G.g inv) G.q G.p = 1 := by
  have hp0 : 0 < G.p := by omega
  rw [grpPow_eq _ _ _ hp0, powMod_eq _ _ _ hp0, ← Nat.pow_mod, ← pow_mul, mul_comm, pow_mul,
    Nat.pow_mod]
  rw [powMod_eq _ _ _ hp0] at hord
  rw [hord, one_pow]
  exact Nat.mod_eq_of_lt hp

theorem powMod_grpPow_exp (G : DDHGrp) (inv e : Nat) (hp : 0 < G.p) :
    powMod (grpPow G G.g inv) e G.p = G.g ^ (inv * e) % G.p := by
  rw [grpPow_eq _ _ _ hp, powMod_eq _ _ _ hp, ← Nat.pow_mod, ← pow_mul]

theorem grpPow_grpPow (G : DDHGrp) (a b : Nat) (hp : 0 < G.p) :
    grpPow G (grpPow G G.g a) b = G.g ^ (a * b) % G.p := by
  rw [grpPow_eq _ _ _ hp, grpPow_eq _ _ _ hp, ← Nat.pow_mod, ← pow_mul]

/-- The Fermat telescope: `(r_R r_C)^{q-2} · (a r_R mod q)(b r_C mod q)
≡ a·b (mod q)` for prime q and blinders coprime to q. -/
theorem inv_exp_telescope (q a b rR rC : Nat) (hq : Nat.Prime q)
    (hrR : ¬ q ∣ rR) (hrC : ¬ q ∣ rC) :
    powMod (rR * rC % q) (q - 2) q * ((a * rR % q) * (b * rC % q) % q) % q
      = a * b % q := by
  haveI : Fact (Nat.Prime q) := ⟨hq⟩
  have hq1 : 1 < q := hq.one_lt
  have hq0 : 0 < q := by omega
  rw [powMod_eq _ _ _ hq0]
  apply (ZMod.natCast_eq_natCast_iff' _ _ q).mp
  push_cast [ZMod.natCast_mod]
  have hr0 : ((rR : ZMod q)) ≠ 0 := by
    intro h0
    exact hrR ((ZMod.natCast_zmod_eq_zero_iff_dvd rR q).mp h0)
  have hc0 : ((rC : ZMod q)) ≠ 0 := by
    intro h0
    exact hrC ((ZMod.natCast_zmod_eq_zero_iff_dvd rC q).mp h0)
  have hx : ((rR : ZMod q) * (rC : ZMod q)) ≠ 0 := mul_ne_zero hr0 hc0
  have hfermat : ((rR : ZMod q) * (rC : ZMod q)) ^ (q - 1) = 1 :=
    ZMod.pow_card_sub_one_eq_one hx
  have hstep : ((rR : ZMod q) * rC) ^ (q - 2) * ((rR : ZMod q) * rC)
      = ((rR : ZMod q) * rC) ^ (q - 1) := by
    rw [← pow_succ]
    congr 1
    omega
  calc ((rR : ZMod q) * rC) ^ (q - 2) * ((a : ZMod q) * rR * ((b : ZMod q) * rC))
      = (((rR : ZMod q) * rC) ^ (q - 2) * ((rR : ZMod q) * rC)) * ((a : ZMod q) * b) := by
        ring
    _ = ((a : ZMod q) * b) := by rw [hstep, hfermat, one_mul]

/-- The ROW 1-out-of-m service exactly as the repository constructs it
(`OT1ofmSender(group, row_ot_payload, label=b"ROW")` with the `__init__`
randomness explicit): its per-bit senders are unprepared. -/
def mkRowSvc (G : DDHGrp) (R : List Nat) (rR : Nat) (sid : Bytes)
    (s0 s1 : Nat → Bytes) : OTService :=
  ⟨G, R.map (fun x => x * rR % G.q), ROW_LABEL, sid, s0, s1, fun _ => none⟩

/-- The COL 1-out-of-m service over the blinded column payload, as
constructed: per-bit senders unprepared. -/
def mkColSvc (G : DDHGrp) (C : List Nat) (rC : Nat) (sid : Bytes)
    (s0 s1 : Nat → Bytes) : OTService :=
  ⟨G, C.map (fun x => x * rC % G.q), COL_LABEL, sid, s0, s1, fun _ => none⟩

/-- The key `K_{i,j} = h(g^{R_i C_j})` used by `_precompute_commitments`. -/
def senderKey (G : DDHGrp) (alpha beta : Nat) (R C : List Nat) (i' j' : Nat) : Bytes :=
  pairHash G.p G.q alpha beta (lambdaBytes G.q)
    (grpPow G (grpPow G G.g (R.getD i' 0)) (C.getD j' 0))

/-- The commitment blob `Y_{i,j}` (the `some`-value of `commit`). -/
def senderBlob (H : Hash) (G : DDHGrp) (msgs : List Bytes) (m alpha beta : Nat)
    (R C : List Nat) (i' j' : Nat) : Bytes :=
  (commit H
    ((((List.range m).map (fun r => (msgs.drop (r * m)).take m)).getD i' []).getD j' [])
    (senderKey G alpha beta R C i' j') []).getD []

theorem idx_lt_sq (m i j : Nat) (hi : i < m) (hj : j < m) : i * m + j < m * m := by
  calc i * m + j < i * m + m := by omega
    _ = (i + 1) * m := by ring
    _ ≤ m * m := Nat.mul_le_mul_right m hi

theorem reshape_getD (msgs : List Bytes) (m i j : Nat)
    (hi : i < m) (hj : j < m) :
    ((((List.range m).map (fun r => (msgs.drop (r * m)).take m)).getD i []).getD j [])
      = msgs.getD (i * m + j) [] := by
  rw [getD_map_range _ _ _ _ hi]
  rw [List.getD_eq_getElem?_getD, List.getD_eq_getElem?_getD]
  rw [List.getElem?_take_of_lt hj, List.getElem?_drop]

theorem getD_map_scalar (L : List Nat) (f : Nat → Nat) (i : Nat) (h : i < L.length) :
    (L.map f).getD i 0 = f (L.getD i 0) := by
  rw [List.getD_eq_getElem?_getD, List.getD_eq_getElem?_getD, List.getElem?_map,
    List.getElem?_eq_getElem h]
  rfl

/-- C1 (code bug): for every valid setup (prime subgroup order, generator
of exact order q, N = m² bounded messages, row and column scalars and fresh
blinders in `Z_q^*`), the sender's construction, public setup, ingestion
and round payload all succeed, and the two genuine 1-out-of-m OT services
over `row_ot_payload` and `col_ot_payload` construct successfully — but
because the repository never calls `prepare()` on the services' per-bit
`DDHOTSender`s, the genuine ROW chooser built by `make_chooser` always
fails (the receiver's `choose` reads the non-existent `S2.A`,
ot_1ofm.py:122), so `select_and_open(i, j, …)` aborts inside the ROW
chooser and never returns `X[i][j]`. -/
theorem c1_query_aborts
    (H : Hash) (G : DDHGrp) (msgs : List Bytes) (m alpha beta rR rC i j : Nat)
    (R C : List Nat) (sidR sidC : Bytes) (sR0 sR1 sC0 sC1 : Nat → Bytes)
    (bR bC : Nat → Nat)
    (h32 : ∀ b, (H.sha b).length = 32) (hm32 : ∀ k d, (H.hmac k d).length = 32)
    (hp2 : 2 < G.p) (hq2 : 2 < G.q) (hqprime : Nat.Prime G.q)
    (hord1 : powMod G.g G.q G.p = 1) (hord2 : powMod G.g 2 G.p ≠ 1)
    (hN : msgs.length = m * m) (hm : 0 < m)
    (hmlen : ∀ x ∈ msgs, x.length < 2 ^ 32)
    (hR : R.length = m) (hC : C.length = m)
    (hRwf : ∀ x ∈ R, 1 ≤ x ∧ x < G.q) (hCwf : ∀ x ∈ C, 1 ≤ x ∧ x < G.q)
    (hrR : 1 ≤ rR ∧ rR < G.q) (hrC : 1 ≤ rC ∧ rC < G.q)
    (hi : i < m) (hj : j < m)
    (hlR : svcL (mkRowSvc G R rR sidR sR0 sR1) ≤ 65536)
    (hlC : svcL (mkColSvc G C rC sidC sC0 sC1) ≤ 65536) :
    ∃ sd setup st rp,
      mkSender G msgs alpha beta R C = some sd
      ∧ publicSetup H sd = some setup
      ∧ ingestPublicSetup G setup = some st
      ∧ prepareQueryPayload sd rR rC = some rp
      ∧ mkService H G rp.row_ot_payload ROW_LABEL sidR sR0 sR1
          = some (mkRowSvc G R rR sidR sR0 sR1)
      ∧ mkService H G rp.col_ot_payload COL_LABEL sidC sC0 sC1
          = some (mkColSvc G C rC sidC sC0 sC1)
      ∧ selectAndOpen H st i j rp
          (makeChooser H G ROW_LABEL (mkRowSvc G R rR sidR sR0 sR1) bR)
          (makeChooser H G COL_LABEL (mkColSvc G C rC sidC sC0 sC1) bC) []
        = Except.error QErr.chooserRow := by
  have hp1 : 1 < G.p := by omega
  have hp0 : 0 < G.p := by omega
  have hq1 : 1 < G.q := by omega
  have hq0 : 0 < G.q := by omega
  -- the sender
  have hgrid : gridDim msgs.length = some m := by
    unfold gridDim
    rw [hN, Nat.sqrt_eq m, if_pos rfl]
  have hsd : mkSender G msgs alpha beta R C
      = some ⟨G, m, (List.range m).map (fun r => (msgs.drop (r * m)).take m),
          alpha, beta, R, C⟩ := by
    unfold mkSender
    rw [if_neg (not_not_intro ⟨hp2, hq2, hord1, hord2⟩), hgrid]
  -- every commitment cell computes and round-trips
  have hlam : 0 < lambdaBytes G.q := by
    unfold lambdaBytes
    omega
  have hcell : ∀ i' j', i' < m → j' < m →
      commit H
        ((((List.range m).map (fun r => (msgs.drop (r * m)).take m)).getD i' []).getD j' [])
        (senderKey G alpha beta R C i' j') []
        = some (senderBlob H G msgs m alpha beta R C i' j') := by
    intro i' j' hi' hj'
    have hmem : (((List.range m).map
        (fun r => (msgs.drop (r * m)).take m)).getD i' []).getD j' [] ∈ msgs := by
      rw [reshape_getD msgs m i' j' hi' hj']
      apply getD_mem
      rw [hN]
      exact idx_lt_sq m i' j' hi' hj'
    obtain ⟨blob, hcom, hopen⟩ := commit_copen_roundtrip H _
      (senderKey G alpha beta R C i' j') [] h32 hm32
      (by unfold senderKey pairHash; rw [beBytes_length]; omega)
      (hmlen _ hmem)
    have hblob : senderBlob H G msgs m alpha beta R C i' j' = blob := by
      unfold senderBlob
      rw [hcom]
      rfl
    rw [hblob]
    exact hcom
  -- the commitment grid
  have hY : senderY H ⟨G, m, (List.range m).map (fun r => (msgs.drop (r * m)).take m),
      alpha, beta, R, C⟩
      = some ((List.range m).map (fun i' => (List.range m).map
          (fun j' => senderBlob H G msgs m alpha beta R C i' j'))) := by
    unfold senderY
    apply mapM_some
    intro i' hi'
    have hi'm : i' < m := List.mem_range.mp hi'
    apply mapM_some
    intro j' hj'
    have hj'm : j' < m := List.mem_range.mp hj'
    exact hcell i' j' hi'm hj'm
  -- public setup and ingestion
  have hsetup : publicSetup H ⟨G, m, (List.range m).map (fun r => (msgs.drop (r * m)).take m),
      alpha, beta, R, C⟩
      = some ⟨m, (List.range m).map (fun i' => (List.range m).map
          (fun j' => senderBlob H G msgs m alpha beta R C i' j')),
          alpha, beta, lambdaBytes G.q, G.p, G.q⟩ := by
    unfold publicSetup
    rw [hY]
    rfl
  have hingest : ingestPublicSetup G ⟨m, (List.range m).map (fun i' => (List.range m).map
      (fun j' => senderBlob H G msgs m alpha beta R C i' j')),
      alpha, beta, lambdaBytes G.q, G.p, G.q⟩
      = some ⟨G, m, (List.range m).map (fun i' => (List.range m).map
          (fun j' => senderBlob H G msgs m alpha beta R C i' j')),
          alpha, beta, lambdaBytes G.q, G.p, G.q⟩ := by
    unfold ingestPublicSetup
    dsimp only
    rw [if_neg (by omega : ¬(m = 0))]
    rw [if_neg (by simp)]
    rw [if_neg (not_not_intro ?hball)]
    case hball =>
      intro row hrow
      obtain ⟨i', _, rfl⟩ := List.mem_map.mp hrow
      simp
    rw [if_neg (by simp), if_neg (by simp)]
  -- the round payload
  have hrrne : rR * rC % G.q ≠ 0 := by
    intro h0
    have hdvd := Nat.dvd_of_mod_eq_zero h0
    rcases (Nat.Prime.dvd_mul hqprime).mp hdvd with h' | h'
    · exact not_dvd_of_lt_range G.q rR hrR h'
    · exact not_dvd_of_lt_range G.q rC hrC h'
  have hrp : prepareQueryPayload ⟨G, m, (List.range m).map
      (fun r => (msgs.drop (r * m)).take m), alpha, beta, R, C⟩ rR rC
      = some ⟨R.map (fun x => x * rR % G.q), C.map (fun x => x * rC % G.q),
          grpPow G G.g (powMod (rR * rC % G.q) (G.q - 2) G.q)⟩ := by
    unfold prepareQueryPayload
    dsimp only
    rw [if_neg (by
      intro h0
      rw [Nat.mod_mod_of_dvd _ (dvd_refl G.q)] at h0
      exact hrrne h0)]
  -- the two services construct exactly as `__init__` builds them
  have hsvR : mkService H G (R.map (fun x => x * rR % G.q)) ROW_LABEL sidR sR0 sR1
      = some (mkRowSvc G R rR sidR sR0 sR1) :=
    mkService_eq H G _ ROW_LABEL sidR sR0 sR1 _ ⟨hord1, hord2⟩
      (by rw [List.length_map, hR]; omega)
      (blinded_wf G.q rR hqprime R hRwf hrR)
      (svcCiphertexts_some H (mkRowSvc G R rR sidR sR0 sR1) h32 hlR hq0)
  have hsvC : mkService H G (C.map (fun x => x * rC % G.q)) COL_LABEL sidC sC0 sC1
      = some (mkColSvc G C rC sidC sC0 sC1) :=
    mkService_eq H G _ COL_LABEL sidC sC0 sC1 _ ⟨hord1, hord2⟩
      (by rw [List.length_map, hC]; omega)
      (blinded_wf G.q rC hqprime C hCwf hrC)
      (svcCiphertexts_some H (mkColSvc G C rC sidC sC0 sC1) h32 hlC hq0)
  refine ⟨_, _, _, _, hsd, hsetup, hingest, hrp, hsvR, hsvC, ?_⟩
  -- the select-and-open run aborts at the ROW chooser
  unfold selectAndOpen
  dsimp only
  rw [if_neg (not_not_intro ⟨hi, hj⟩)]
  rw [if_neg (not_not_intro ⟨by simp [hR], by simp [hC]⟩)]
  have hrange : ∀ x ∈ R.map (fun x => x * rR % G.q) ++ C.map (fun x => x * rC % G.q),
      x < G.q := by
    intro x hx
    rcases List.mem_append.mp hx with h' | h'
    · exact (blinded_wf G.q rR hqprime R hRwf hrR x h').2
    · exact (blinded_wf G.q rC hqprime C hCwf hrC x h').2
  rw [if_neg (not_not_intro hrange)]
  rw [if_neg (not_not_intro (gpir_subgroup G _ hp1 hord1))]
  have hrowch : makeChooser H G ROW_LABEL (mkRowSvc G R rR sidR sR0 sR1) bR
      (R.map (fun x => x * rR % G.q)) i = none := by
    unfold makeChooser
    rw [if_neg (not_not_intro ⟨hord1, hord2⟩)]
    rw [if_neg (not_not_intro (show R.map (fun x => x * rR % G.q)
      = (mkRowSvc G R rR sidR sR0 sR1).payload from rfl))]
    exact choose_unprepared H G ROW_LABEL _ i bR rfl
  rw [hrowch]

set_option maxRecDepth 40000 in
/-- C1 witness: on the concrete 2×2 grid over `G0` (`p = 23`, `q = 11`,
`g = 2`) with messages `[[1],[2],[3],[4]]`, row scalars `[1,2]`, column
scalars `[3,4]` and blinders `r_R = 5`, `r_C = 6`, the whole setup and both
service constructions succeed, yet the query `(1, 0)` aborts inside the ROW
chooser. -/
theorem c1_query_aborts_witness :
    ∃ sd setup st rp,
      mkSender G0 [[1], [2], [3], [4]] 7 9 [1, 2] [3, 4] = some sd
      ∧ publicSetup HW sd = some setup
      ∧ ingestPublicSetup G0 setup = some st
      ∧ prepareQueryPayload sd 5 6 = some rp
      ∧ mkService HW G0 rp.row_ot_payload ROW_LABEL (List.replicate 16 1)
          (fun _ => List.replicate 32 7) (fun _ => List.replicate 32 9)
          = some (mkRowSvc G0 [1, 2] 5 (List.replicate 16 1)
              (fun _ => List.replicate 32 7) (fun _ => List.replicate 32 9))
      ∧ mkService HW G0 rp.col_ot_payload COL_LABEL (List.replicate 16 2)
          (fun _ => List.replicate 32 5) (fun _ => List.replicate 32 6)
          = some (mkColSvc G0 [3, 4] 6 (List.replicate 16 2)
              (fun _ => List.replicate 32 5) (fun _ => List.replicate 32 6))
      ∧ selectAndOpen HW st 1 0 rp
          (makeChooser HW G0 ROW_LABEL
            (mkRowSvc G0 [1, 2] 5 (List.replicate 16 1)
              (fun _ => List.replicate 32 7) (fun _ => List.replicate 32 9))
            (fun _ => 4))
          (makeChooser HW G0 COL_LABEL
            (mkColSvc G0 [3, 4] 6 (List.replicate 16 2)
              (fun _ => List.replicate 32 5) (fun _ => List.replicate 32 6))
            (fun _ => 4)) []
        = Except.error QErr.chooserRow :=
  c1_query_aborts HW G0 [[1], [2], [3], [4]] 2 7 9 5 6 1 0 [1, 2] [3, 4]
    (List.replicate 16 1) (List.replicate 16 2)
    (fun _ => List.replicate 32 7) (fun _ => List.replicate 32 9)
    (fun _ => List.replicate 32 5) (fun _ => List.replicate 32 6)
    (fun _ => 4) (fun _ => 4)
    HW_sha32 HW_hmac32 (by decide) (by decide) (show Nat.Prime 11 by norm_num)
    (by decide) (by decide) (by decide) (by decide) (by decide) (by decide) (by decide)
    (by decide) (by decide) (by decide) (by decide) (by decide) (by decide)
    (by decide) (by decide)
